/-
Verification of the arkit8s assistant model, a shallow embedding of
`src/utilities/assistant_model.py` over exact rational arithmetic.

Modelling conventions:
* Python `float` values are embedded as `ℚ`; every arithmetic operation of the
  source (addition, multiplication, division, `max`) is exact on `ℚ`.
* `math.sqrt` is not rational-valued, so every function that calls it takes an
  explicit parameter `msqrt : ℚ → ℚ` standing for `math.sqrt`; theorems that
  depend on the numeric meaning of the square root carry a `sqrtSpec`
  hypothesis saying that `msqrt` returns the exact nonnegative square root at
  the values where the source consults it.
* IEEE-754 special values (needed only for the `math.isnan` divergence guard
  at lines 296-300 of the source) are modelled by the dedicated type `PyFloat`.
* `random.Random(42)` is a deterministic generator from the Python standard
  library (outside this repository); its two methods used by the source,
  `gauss` and `shuffle`, are abstracted as an explicit state-passing record
  `PyRandom`, threaded exactly as the source threads its `rng` object,
  starting from the constant seed state 42 (source line 275).
* File-system effects (`_prepare_dataset`'s directory walk, `pickle.dump`,
  `pickle.load`) are made explicit: training receives the corpus as an ordered
  list of `(relative path, file text)` pairs (the source visits files in
  sorted path order) and returns the state that the source would pickle;
  a training run that raises persists nothing, which the embedding renders by
  returning `Except.error` instead of a state.
* Python exception sites are mapped to the error taxonomy of the design
  specification: the `RuntimeError` at source line 237 is `emptyCorpus`, the
  one at line 241 is `emptyVocabulary`, the one at line 300 is
  `trainingDiverged`, `AssistantModelNotFoundError` is `modelNotFound`, the
  version-mismatch `RuntimeError` at line 359 is `incompatibleModel`, and the
  `ValueError` at line 394 is `unknownVocabularyQuery`.
-/
import Mathlib

namespace Arkit8s

/-- Error taxonomy corresponding to the raise sites of
`src/utilities/assistant_model.py` (see the header comment for the mapping). -/
inductive AssistantError where
  | emptyCorpus
  | emptyVocabulary
  | trainingDiverged
  | modelNotFound
  | incompatibleModel
  | unknownVocabularyQuery
deriving DecidableEq

/-- Container for the assistant inference result (class `AssistantReply`). -/
structure AssistantReply where
  answer : String
  supporting_chunks : List (String × String)
  command_suggestions : List (String × String)
deriving DecidableEq

/-- Fixed schema version (source line 18: `MODEL_VERSION = 2`). -/
def MODEL_VERSION : Nat := 2

/-- Decidable equality of `Except` results, used to evaluate concrete runs. -/
instance {ε α : Type} [DecidableEq ε] [DecidableEq α] : DecidableEq (Except ε α) := fun a b =>
  match a, b with
  | .ok x, .ok y => decidable_of_iff (x = y) (by simp)
  | .error x, .error y => decidable_of_iff (x = y) (by simp)
  | .ok _, .error _ => isFalse fun h => by cases h
  | .error _, .ok _ => isFalse fun h => by cases h

/-- Lowercasing of one character as performed by Python `str.lower` on the
character set the tokenizer can keep: ASCII letters plus the accented Latin
letters listed in the regex of `_tokenize` (source line 35). -/
def pyLower (c : Char) : Char :=
  if c = 'Á' then 'á' else if c = 'É' then 'é' else if c = 'Í' then 'í'
  else if c = 'Ó' then 'ó' else if c = 'Ú' then 'ú' else if c = 'Ü' then 'ü'
  else if c = 'Ñ' then 'ñ' else c.toLower

/-- Character class of the regex `[\wáéíóúüñÁÉÍÓÚÜÑ]` of `_tokenize`
(source line 35): ASCII alphanumerics, underscore and the listed accented
letters.  (Python's `\w` also matches further Unicode word characters; the
corpus and every claim only exercise this subset.) -/
def isWordChar (c : Char) : Bool :=
  c.isAlphanum || c = '_' ||
    c = 'á' || c = 'é' || c = 'í' || c = 'ó' || c = 'ú' || c = 'ü' || c = 'ñ' ||
    c = 'Á' || c = 'É' || c = 'Í' || c = 'Ó' || c = 'Ú' || c = 'Ü' || c = 'Ñ'

/-- Scanning loop of `re.findall` for the word regex: accumulate the current
word-character run (reversed) and flush it at a non-word character or at the
end of the input. -/
def tokenizeGo : List Char → List Char → List (List Char)
  | [], acc => if acc = [] then [] else [acc.reverse]
  | c :: cs, acc =>
    if isWordChar c then tokenizeGo cs (c :: acc)
    else if acc = [] then tokenizeGo cs [] else acc.reverse :: tokenizeGo cs []

/-- Maximal runs of word characters, as `re.findall` of `_tokenize` produces
them (source line 35). -/
def tokenizeChars (cs : List Char) : List (List Char) := tokenizeGo cs []

/-- Embeds `_tokenize` (source lines 34-35): lowercase the text, then collect
the maximal word-character runs. -/
def _tokenize (text : String) : List String :=
  (tokenizeChars (text.toList.map pyLower)).map fun cs => String.mk cs

/-- Python `\s` whitespace class, restricted to the ASCII whitespace
characters (the only ones the corpus and the claims exercise). -/
def isPySpace (c : Char) : Bool :=
  c = ' ' || c = '\t' || c = '\n' || c = '\r' || c = '\x0b' || c = '\x0c'

/-- Python `str.strip`: drop leading and trailing whitespace. -/
def pyStrip (s : String) : String :=
  String.mk (((s.toList.dropWhile isPySpace).reverse.dropWhile isPySpace).reverse)

/-- Index of the last newline inside the maximal whitespace prefix of `cs`,
or `none`.  This is where the greedy-with-backtracking match of the regex
`\n\s*\n` places the final `\n` of a separator match. -/
def lastNewlineInWsPrefix (cs : List Char) : Option Nat :=
  (((cs.takeWhile isPySpace).enum.filter fun p => p.2 = '\n').map fun p => p.1).getLast?

/-- Leftmost-match step for the separator regex `\n\s*\n` of `_chunk_text`
(source line 39): if `cs` starts with a separator match, return the suffix
following the match. -/
def sepMatch : List Char → Option (List Char)
  | [] => none
  | c :: rest =>
    if c = '\n' then
      match lastNewlineInWsPrefix rest with
      | some p => some (rest.drop (p + 1))
      | none => none
    else none

/-- Scanning loop of `re.split(r"\n\s*\n", text)`: cut at every leftmost
separator match.  `fuel` only bounds the recursion; `text.length + 1` always
suffices because every step consumes at least one character. -/
def splitBlankGo (fuel : Nat) (cs : List Char) (acc : List Char) : List (List Char) :=
  match fuel with
  | 0 => [acc.reverse]
  | fuel + 1 =>
    match cs with
    | [] => [acc.reverse]
    | c :: rest =>
      match sepMatch (c :: rest) with
      | some rest2 => acc.reverse :: splitBlankGo fuel rest2 []
      | none => splitBlankGo fuel rest (c :: acc)

/-- Embeds `re.split(r"\n\s*\n", text)` from `_chunk_text` (source line 39). -/
def pySplitBlank (text : String) : List String :=
  (splitBlankGo (text.toList.length + 1) text.toList []).map fun cs => String.mk cs

/-- Paragraph list of `_chunk_text` (source line 39): split on blank-line
separators, strip each segment, keep the nonempty ones. -/
def paragraphsOf (text : String) : List String :=
  ((pySplitBlank text).map pyStrip).filter fun s => s ≠ ""

/-- Sum of the character counts of the paragraphs in a buffer; this is the
quantity the source tracks in its `current` accumulator (source lines 45-53). -/
def paraLenSum (buffer : List String) : Nat :=
  (buffer.map String.length).sum

/-- One iteration of the paragraph-packing loop of `_chunk_text`
(source lines 46-53), acting on the state `(chunks, buffer, current)`.
The source appends the joined buffer to `chunks`; here a chunk is kept as its
buffer (the list of its paragraphs) and joined at the end, which produces the
same strings. -/
def chunkStep (max_chars : Nat) :
    List (List String) × List String × Nat → String →
    List (List String) × List String × Nat
  | (chunks, buffer, current), paragraph =>
    let para_len := paragraph.length
    if max_chars < current + para_len ∧ buffer ≠ [] then
      (chunks ++ [buffer], [paragraph], para_len)
    else
      (chunks, buffer ++ [paragraph], current + para_len)

/-- Paragraph groups built by the packing loop of `_chunk_text`
(source lines 43-56), including the final `if buffer:` flush. -/
def chunkGroups (paragraphs : List String) (max_chars : Nat) : List (List String) :=
  let final := paragraphs.foldl (chunkStep max_chars) ([], [], 0)
  match final with
  | (chunks, buffer, _) => if buffer ≠ [] then chunks ++ [buffer] else chunks

/-- Embeds `_chunk_text` (source lines 38-57). -/
def _chunk_text (text : String) (max_chars : Nat) : List String :=
  let paragraphs := paragraphsOf text
  if paragraphs = [] then []
  else (chunkGroups paragraphs max_chars).map fun g => String.intercalate "\n\n" g

/-- Greedy-closure relation between consecutive chunks: the earlier chunk
was closed exactly because adding the first paragraph of the next one would
have pushed the tracked character count past `max_chars`. -/
def chunkRel (max_chars : Nat) (g g' : List String) : Prop :=
  max_chars < paraLenSum g + (g'.headD "").length

/-- Loop invariant of the packing fold of `_chunk_text` over the state
`(chunks, buffer, current)`. -/
def ChunkInv (max_chars : Nat) : List (List String) × List String × Nat → Prop
  | (chunks, buffer, current) =>
    current = paraLenSum buffer ∧
    (buffer = [] → chunks = []) ∧
    (∀ g ∈ chunks, g ≠ []) ∧
    (∀ g ∈ chunks, 2 ≤ g.length → paraLenSum g ≤ max_chars) ∧
    (2 ≤ buffer.length → paraLenSum buffer ≤ max_chars) ∧
    List.Chain' (chunkRel max_chars) chunks ∧
    (∀ glast, chunks.getLast? = some glast → buffer ≠ [] → chunkRel max_chars glast buffer)

/-- Modelled from the claim wording of C5: a packing loop that closes the
current chunk exactly when adding the next paragraph would make the chunk
text itself (separators included, two characters per join) exceed
`max_chars`; `current` tracks the length of the joined chunk text. -/
def chunkStepClaim (max_chars : Nat) :
    List (List String) × List String × Nat → String →
    List (List String) × List String × Nat
  | (chunks, buffer, current), paragraph =>
    let para_len := paragraph.length
    let added := if buffer = [] then para_len else current + 2 + para_len
    if max_chars < added ∧ buffer ≠ [] then
      (chunks ++ [buffer], [paragraph], para_len)
    else
      (chunks, buffer ++ [paragraph], added)

/-- Modelled from the claim wording of C5: paragraph groups under the
chunk-text-length closure criterion. -/
def chunkGroupsClaim (paragraphs : List String) (max_chars : Nat) : List (List String) :=
  let final := paragraphs.foldl (chunkStepClaim max_chars) ([], [], 0)
  match final with
  | (chunks, buffer, _) => if buffer ≠ [] then chunks ++ [buffer] else chunks

/-- Modelled from the claim wording of C5: `_chunk_text` as the claim
describes it, closing a chunk exactly when its final text would exceed
`max_chars`. -/
def _chunk_text_claim (text : String) (max_chars : Nat) : List String :=
  let paragraphs := paragraphsOf text
  if paragraphs = [] then []
  else (chunkGroupsClaim paragraphs max_chars).map fun g => String.intercalate "\n\n" g

/-- One `Counter.update` step for a single token: `collections.Counter` is a
dict keyed by token, iterated in first-insertion order, which an in-place
association list reproduces exactly. -/
def counterUpdate (counter : List (String × Nat)) (token : String) : List (String × Nat) :=
  match counter with
  | [] => [(token, 1)]
  | (t, c) :: rest =>
    if t = token then (t, c + 1) :: rest else (t, c) :: counterUpdate rest token

/-- Global token frequencies of `_build_vocabulary` (source lines 61-63). -/
def buildCounter (tokenized_chunks : List (List String)) : List (String × Nat) :=
  tokenized_chunks.foldl (fun c tokens => tokens.foldl counterUpdate c) []

/-- Lexicographic comparison of character lists by code point: the order in
which Python compares the strings of the sort key `(-item[1], item[0])`
(source line 66). -/
def charsLe : List Char → List Char → Bool
  | [], _ => true
  | _ :: _, [] => false
  | a :: as, b :: bs => if a < b then true else if b < a then false else charsLe as bs

/-- Python string comparison `a <= b` (code-point lexicographic). -/
def pyStrLe (a b : String) : Bool :=
  charsLe a.toList b.toList

/-- Ordering realising the sort key `(-item[1], item[0])` of
`_build_vocabulary` (source line 66): frequency descending, then token
ascending. -/
def vocabOrder (a b : String × Nat) : Prop :=
  b.2 < a.2 ∨ (a.2 = b.2 ∧ pyStrLe a.1 b.1 = true)

instance : DecidableRel vocabOrder := fun a b => by unfold vocabOrder; infer_instance

instance : IsTotal (String × Nat) vocabOrder where
  total a b := by
    have hchars : ∀ x y : List Char, charsLe x y = true ∨ charsLe y x = true := by
      intro x
      induction x with
      | nil => intro y; left; rfl
      | cons a as ih =>
        intro y
        cases y with
        | nil => right; rfl
        | cons b bs =>
          unfold charsLe
          rcases lt_trichotomy a b with h | h | h
          · left
            rw [if_pos h]
          · subst h
            simp only [if_neg (lt_irrefl a)]
            exact ih bs
          · right
            rw [if_pos h]
    unfold vocabOrder
    rcases Nat.lt_trichotomy a.2 b.2 with h | h | h
    · exact Or.inr (Or.inl h)
    · rcases hchars a.1.toList b.1.toList with h2 | h2
      · exact Or.inl (Or.inr ⟨h, h2⟩)
      · exact Or.inr (Or.inr ⟨h.symm, h2⟩)
    · exact Or.inl (Or.inl h)

instance : IsTrans (String × Nat) vocabOrder where
  trans a b c hab hbc := by
    have hchars : ∀ x y z : List Char,
        charsLe x y = true → charsLe y z = true → charsLe x z = true := by
      intro x
      induction x with
      | nil => intro y z _ _; rfl
      | cons a as ih =>
        intro y z h1 h2
        cases y with
        | nil => exact absurd h1 (by simp [charsLe])
        | cons b bs =>
          cases z with
          | nil => exact absurd h2 (by simp [charsLe])
          | cons c cs =>
            unfold charsLe at h1 h2 ⊢
            rcases lt_trichotomy a b with hab2 | hab2 | hab2
            · rcases lt_trichotomy b c with hbc2 | hbc2 | hbc2
              · rw [if_pos (hab2.trans hbc2)]
              · subst hbc2
                rw [if_pos hab2]
              · rw [if_neg (lt_asymm hbc2), if_pos hbc2] at h2
                exact absurd h2 (by simp)
            · subst hab2
              rcases lt_trichotomy a c with hac | hac | hac
              · rw [if_pos hac]
              · subst hac
                simp only [if_neg (lt_irrefl a)] at h1 h2 ⊢
                exact ih bs cs h1 h2
              · rw [if_neg (lt_asymm hac), if_pos hac] at h2
                exact absurd h2 (by simp)
            · rw [if_neg (lt_asymm hab2), if_pos hab2] at h1
              exact absurd h1 (by simp)
    unfold vocabOrder at hab hbc ⊢
    rcases hab with h1 | ⟨h1, h1s⟩ <;> rcases hbc with h2 | ⟨h2, h2s⟩
    · exact Or.inl (by omega)
    · exact Or.inl (by omega)
    · exact Or.inl (by omega)
    · exact Or.inr ⟨by omega, hchars _ _ _ h1s h2s⟩

/-- Embeds `_build_vocabulary` (source lines 60-67).  The result is the vocab
dict as an association list in insertion order: token paired with its index.
Python `list.sort` is a stable sort; `List.insertionSort` is stable too, and
the sort key is injective on the distinct counter keys, so the sorted list
is the unique strictly ordered arrangement either way. -/
def _build_vocabulary (tokenized_chunks : List (List String)) (min_frequency : Nat) :
    List (String × Nat) :=
  let counter := buildCounter tokenized_chunks
  let vocab_items := counter.filter fun item => min_frequency ≤ item.2
  let sorted := vocab_items.insertionSort vocabOrder
  sorted.enum.map fun p => (p.2.1, p.1)

/-- Count stored for a token in a counter association list (0 when absent);
accessor used to state the counter lemmas. -/
def countOf (c : List (String × Nat)) (t : String) : Nat :=
  (c.lookup t).getD 0

/-- Global frequency of a token over a tokenized corpus: total number of its
occurrences across all chunks. -/
def corpusCount (chunks : List (List String)) (t : String) : Nat :=
  (chunks.map fun tokens => tokens.count t).sum

/-- Per-token step of `_vectorize` (source lines 72-76): unknown tokens are
skipped, known tokens bump `vector[idx] += 1.0`. -/
def vectorizeStep (vocab : List (String × Nat)) (v : List ℚ) (token : String) : List ℚ :=
  match vocab.lookup token with
  | none => v
  | some idx => v.set idx (v.getD idx 0 + 1)

/-- Raw count vector of `_vectorize` before normalisation (source lines
71-76): zero vector of the vocabulary size, bumped once per known token. -/
def vectorizeCounts (tokens : List String) (vocab : List (String × Nat)) : List ℚ :=
  tokens.foldl (vectorizeStep vocab) (List.replicate vocab.length (0 : ℚ))

/-- Embeds `_vectorize` (source lines 70-80): raw counts of known tokens over
a zero vector of the vocabulary size, then L1 normalisation when the total is
positive. -/
def _vectorize (tokens : List String) (vocab : List (String × Nat)) : List ℚ :=
  let counts := vectorizeCounts tokens vocab
  let total := counts.sum
  if 0 < total then counts.map fun value => value / total else counts

/-- Sum of squares of a row; the argument of `math.sqrt` in `_normalize_rows`
(source line 163) and `_encode_vector` (source line 183). -/
def normSq (row : List ℚ) : ℚ :=
  (row.map fun value => value * value).sum

/-- Specification that a `math.sqrt` stand-in is exact at the value `s`:
nonnegative result whose square is `s`. -/
def sqrtSpec (msqrt : ℚ → ℚ) (s : ℚ) : Prop :=
  0 ≤ msqrt s ∧ msqrt s * msqrt s = s

/-- Embeds `_matmul` (source lines 91-106).  The source's skip of zero left
entries is a pure running-time optimisation with identical value. -/
def _matmul (left right : List (List ℚ)) : List (List ℚ) :=
  left.map fun lrow =>
    (List.range (right.headD []).length).map fun j =>
      ((lrow.zip right).map fun p => p.1 * (p.2.getD j 0)).sum

/-- Embeds `_matrix_add_vector` (source lines 109-110); the column range is
taken from the vector, exactly as in the source. -/
def _matrix_add_vector (matrix : List (List ℚ)) (vector : List ℚ) : List (List ℚ) :=
  matrix.map fun row => (List.range vector.length).map fun j => row.getD j 0 + vector.getD j 0

/-- Embeds `_matrix_subtract` (source lines 113-114); shapes agree at every
call site of the source. -/
def _matrix_subtract (left right : List (List ℚ)) : List (List ℚ) :=
  (left.zip right).map fun p => p.1.zipWith (fun a b => a - b) p.2

/-- Embeds `_matrix_scalar_multiply` (source lines 117-118). -/
def _matrix_scalar_multiply (matrix : List (List ℚ)) (scalar : ℚ) : List (List ℚ) :=
  matrix.map fun row => row.map fun value => value * scalar

/-- Embeds `_matrix_sum_axis0` (source lines 121-129): column sums, the
column count taken from the first row. -/
def _matrix_sum_axis0 (matrix : List (List ℚ)) : List ℚ :=
  match matrix with
  | [] => []
  | first :: _ =>
    matrix.foldl (fun totals row => totals.zipWith (fun a b => a + b) row)
      (List.replicate first.length (0 : ℚ))

/-- Embeds `_transpose` (source lines 132-141). -/
def _transpose (matrix : List (List ℚ)) : List (List ℚ) :=
  match matrix with
  | [] => []
  | first :: _ => (List.range first.length).map fun j => matrix.map fun row => row.getD j 0

/-- Matrix branch of `_relu` (source lines 144-149): elementwise
`max(value, 0.0)`. -/
def _relu (matrix : List (List ℚ)) : List (List ℚ) :=
  matrix.map fun row => row.map fun value => max value 0

/-- Embeds `_relu_derivative` (source lines 152-153). -/
def _relu_derivative (matrix : List (List ℚ)) : List (List ℚ) :=
  matrix.map fun row => row.map fun value => if 0 < value then (1 : ℚ) else 0

/-- Embeds `_elementwise_multiply` (source lines 156-157); shapes agree at
every call site of the source. -/
def _elementwise_multiply (left right : List (List ℚ)) : List (List ℚ) :=
  (left.zip right).map fun p => p.1.zipWith (fun a b => a * b) p.2

/-- Embeds `_normalize_rows` (source lines 160-168), with `msqrt` standing
for `math.sqrt`. -/
def _normalize_rows (msqrt : ℚ → ℚ) (matrix : List (List ℚ)) : List (List ℚ) :=
  matrix.map fun row =>
    let norm := msqrt (normSq row)
    if norm = 0 then row else row.map fun value => value / norm

/-- Embeds `_vector_dot` (source lines 171-172); Python `zip` truncates to
the shorter list, as `List.zip` does. -/
def _vector_dot (left right : List ℚ) : ℚ :=
  ((left.zip right).map fun p => p.1 * p.2).sum

/-- Python indexing `matrix[i][j]` for the nested loop of `_encode_vector`;
all call sites of the source stay in bounds. -/
def matAt (matrix : List (List ℚ)) (i j : Nat) : ℚ :=
  ((matrix.getD i []).getD j 0)

/-- Pre-normalisation activation of `_encode_vector` (source lines 176-182):
`ReLU(vector · weights + bias)`. -/
def preActivation (vector : List ℚ) (weights : List (List ℚ)) (bias : List ℚ) : List ℚ :=
  ((List.range bias.length).map fun j =>
      bias.getD j 0 + ((List.range vector.length).map fun i =>
        vector.getD i 0 * matAt weights i j).sum).map
    fun value => max value 0

/-- Embeds `_encode_vector` (source lines 175-186): linear layer, ReLU, then
L2 normalisation unless the norm is zero. -/
def _encode_vector (msqrt : ℚ → ℚ) (vector : List ℚ) (weights : List (List ℚ))
    (bias : List ℚ) : List ℚ :=
  let activated := preActivation vector weights bias
  let norm := msqrt (normSq activated)
  if norm = 0 then activated else activated.map fun value => value / norm

/-- Persisted model state (the dict pickled at source lines 330-342). -/
structure ModelState where
  version : Nat
  vocab : List (String × Nat)
  hidden_size : Nat
  encoder_weights : List (List ℚ)
  encoder_bias : List ℚ
  chunk_texts : List String
  chunk_sources : List (String × String)
  chunk_embeddings : List (List ℚ)
deriving DecidableEq

/-- Snippet construction of `_prepare_dataset` (source line 229):
`chunk[:80].replace("\n", " ") + ("..." if len(chunk) > 80 else "")`. -/
def snippetOf (chunk : String) : String :=
  String.mk ((chunk.toList.take 80).map fun c => if c = '\n' then ' ' else c) ++
    (if 80 < chunk.length then "..." else "")

/-- Chunk collection pass of `_prepare_dataset` (source lines 204-234) over
an in-memory corpus: the ordered list of `(relative path, text)` pairs that
the source's sorted directory walk yields after the extension and `tmp`
filters.  Produces `(tokens, chunk, (source path, snippet))` triples; the
`max_files` cap is applied afterwards, which matches the source's early
`break` once `collected` reaches the cap. -/
def collectChunks (documents : List (String × String)) (max_chars : Nat) :
    List (List String × String × String × String) :=
  documents.flatMap fun doc =>
    (_chunk_text doc.2 max_chars).filterMap fun chunk =>
      if pyStrip chunk = "" then none
      else
        let chunk_tokens := _tokenize chunk
        if chunk_tokens = [] then none
        else some (chunk_tokens, chunk, doc.1, snippetOf chunk)

/-- Embeds `_prepare_dataset` (source lines 189-245) on an in-memory corpus,
returning `(chunks, sources, vocab, tokenized)` or the error of the
corresponding `raise`. -/
def _prepare_dataset (documents : List (String × String)) (max_chars min_frequency : Nat)
    (max_files : Option Nat) :
    Except AssistantError
      (List String × List (String × String) × List (String × Nat) × List (List String)) :=
  let all := collectChunks documents max_chars
  let collected := match max_files with | none => all | some m => all.take m
  if collected = [] then .error .emptyCorpus
  else
    let tokenized := collected.map fun t => t.1
    let chunks := collected.map fun t => t.2.1
    let sources := collected.map fun t => (t.2.2.1, t.2.2.2)
    let vocab := _build_vocabulary tokenized min_frequency
    if vocab = [] then .error .emptyVocabulary
    else .ok (chunks, sources, vocab, tokenized)

/-- State-passing abstraction of the two methods of `random.Random` that the
source uses (`gauss` at lines 277 and 279, `shuffle` at line 286).  The
Mersenne-Twister internals are Python standard-library code outside this
repository; every claim depends only on the generator being a fixed
deterministic function threaded from the constant seed. -/
structure PyRandom where
  gauss : Nat → ℚ × Nat
  shuffleNat : Nat → List Nat → List Nat × Nat

/-- Draw one row of Gaussian initialisations (inner comprehension of source
lines 277 and 279), threading the generator state left to right. -/
def drawRow (rng : PyRandom) : Nat → Nat → List ℚ × Nat
  | s, 0 => ([], s)
  | s, n + 1 =>
    let (v, s1) := rng.gauss s
    let (rest, s2) := drawRow rng s1 n
    (v :: rest, s2)

/-- Draw a matrix of Gaussian initialisations (source lines 277 and 279),
row-major, threading the generator state. -/
def drawMatrix (rng : PyRandom) : Nat → Nat → Nat → List (List ℚ) × Nat
  | s, 0, _ => ([], s)
  | s, r + 1, c =>
    let (row, s1) := drawRow rng s c
    let (rest, s2) := drawMatrix rng s1 r c
    (row :: rest, s2)

/-- Parameter update `w -= learning_rate * grad` for a matrix (source lines
311-315 and 318-322); shapes agree at every call site. -/
def matUpdate (w grad : List (List ℚ)) (learning_rate : ℚ) : List (List ℚ) :=
  (w.zip grad).map fun p => p.1.zipWith (fun wv gv => wv - learning_rate * gv) p.2

/-- Parameter update `b -= learning_rate * grad` for a vector (source lines
316-317 and 323-324); shapes agree at every call site. -/
def vecUpdate (b grad : List ℚ) (learning_rate : ℚ) : List ℚ :=
  b.zipWith (fun bv gv => bv - learning_rate * gv) grad

/-- One mini-batch forward/backward/update step of the training loop
(source lines 291-324).  The loss of lines 296-298 and its `math.isnan` guard
at lines 299-300 concern IEEE-754 special values that exact rational
arithmetic cannot produce; the guard is modelled separately on `PyFloat`
below (see `lossGuard`). -/
def trainBatchUpdate (learning_rate : ℚ) (batch : List (List ℚ))
    (W1 : List (List ℚ)) (b1 : List ℚ) (W2 : List (List ℚ)) (b2 : List ℚ) :
    List (List ℚ) × List ℚ × List (List ℚ) × List ℚ :=
  let hidden_linear := _matrix_add_vector (_matmul batch W1) b1
  let hidden := _relu hidden_linear
  let reconstruction := _matrix_add_vector (_matmul hidden W2) b2
  let error := _matrix_subtract reconstruction batch
  let grad_reconstruction := _matrix_scalar_multiply error (2 / (batch.length : ℚ))
  let grad_W2 := _matmul (_transpose hidden) grad_reconstruction
  let grad_b2 := _matrix_sum_axis0 grad_reconstruction
  let grad_hidden := _elementwise_multiply (_matmul grad_reconstruction (_transpose W2))
    (_relu_derivative hidden_linear)
  let grad_W1 := _matmul (_transpose batch) grad_hidden
  let grad_b1 := _matrix_sum_axis0 grad_hidden
  (matUpdate W1 grad_W1 learning_rate, vecUpdate b1 grad_b1 learning_rate,
   matUpdate W2 grad_W2 learning_rate, vecUpdate b2 grad_b2 learning_rate)

/-- Start offsets `range(0, num_samples, batch_size)` of the mini-batch loop
(source line 287). -/
def batchStarts (num_samples batch_size : Nat) : List Nat :=
  (List.range num_samples).filter fun i => i % batch_size = 0

/-- One epoch of the training loop (source lines 286-324): shuffle the index
list with the generator, then apply every mini-batch update in order.
`indices[start:end]` with `end = min(start + batch_size, num_samples)` is
`(indices.drop start).take batch_size`, since Python slicing clamps. -/
def trainEpoch (rng : PyRandom) (learning_rate : ℚ) (batch_size : Nat)
    (vectors : List (List ℚ)) :
    (List Nat × Nat) × List (List ℚ) × List ℚ × List (List ℚ) × List ℚ →
    (List Nat × Nat) × List (List ℚ) × List ℚ × List (List ℚ) × List ℚ
  | ((indices, s), W1, b1, W2, b2) =>
    let shuffled := rng.shuffleNat s indices
    let params := (batchStarts vectors.length batch_size).foldl
      (fun params start =>
        match params with
        | (W1, b1, W2, b2) =>
          let batch := ((shuffled.1.drop start).take batch_size).map
            fun idx => vectors.getD idx []
          trainBatchUpdate learning_rate batch W1 b1 W2 b2)
      (W1, b1, W2, b2)
    (shuffled, params)

/-- Embeds `train_assistant_knowledge_base` (source lines 248-349) on an
in-memory corpus.  The returned `ModelState` is exactly the dict pickled to
the output path at lines 330-342; an `Except.error` result corresponds to a
raise, in which case the source writes nothing. -/
def train_assistant_knowledge_base (rng : PyRandom) (msqrt : ℚ → ℚ)
    (documents : List (String × String)) (epochs hidden_size batch_size : Nat)
    (max_chars min_frequency : Nat) (max_chunks : Option Nat) (learning_rate : ℚ) :
    Except AssistantError ModelState :=
  match _prepare_dataset documents max_chars min_frequency max_chunks with
  | .error e => .error e
  | .ok (chunks, sources, vocab, tokenized) =>
    let vectors := tokenized.map fun tokens => _vectorize tokens vocab
    let vocab_size := vocab.length
    let s0 := 42
    let drawn1 := drawMatrix rng s0 vocab_size hidden_size
    let W1 := drawn1.1
    let b1 := List.replicate hidden_size (0 : ℚ)
    let drawn2 := drawMatrix rng drawn1.2 hidden_size vocab_size
    let W2 := drawn2.1
    let b2 := List.replicate vocab_size (0 : ℚ)
    let indices := List.range vectors.length
    let final := (List.range epochs).foldl
      (fun st _epoch => trainEpoch rng learning_rate batch_size vectors st)
      ((indices, drawn2.2), W1, b1, W2, b2)
    match final with
    | (_, W1f, b1f, _W2f, _b2f) =>
      let embeddings := _normalize_rows msqrt
        (_relu (_matrix_add_vector (_matmul vectors W1f) b1f))
      .ok { version := MODEL_VERSION, vocab := vocab, hidden_size := hidden_size,
            encoder_weights := W1f, encoder_bias := b1f, chunk_texts := chunks,
            chunk_sources := sources, chunk_embeddings := embeddings }

/-- Corpus vectors of a training run, recomputed from the same inputs: the
`vectors` list of source line 273. -/
def corpusVectors (documents : List (String × String)) (max_chars min_frequency : Nat)
    (max_chunks : Option Nat) : List (List ℚ) :=
  match _prepare_dataset documents max_chars min_frequency max_chunks with
  | .error _ => []
  | .ok (_, _, vocab, tokenized) => tokenized.map fun tokens => _vectorize tokens vocab

/-- IEEE-754 style value for the one place where the source distinguishes
special float values: the `math.isnan` divergence guard of the training loop
(source lines 296-300). -/
inductive PyFloat where
  | finite (val : ℚ)
  | posInf
  | negInf
  | nan
deriving DecidableEq

/-- Embeds `math.isnan`. -/
def PyFloat.isnan : PyFloat → Bool
  | .nan => true
  | _ => false

/-- Embeds `math.isfinite`: true exactly on ordinary (non-infinite, non-NaN)
values. -/
def PyFloat.isfinite : PyFloat → Bool
  | .finite _ => true
  | _ => false

/-- The divergence guard of the training loop (source lines 299-300):
`if math.isnan(loss): raise RuntimeError(...)`. -/
def lossGuard (loss : PyFloat) : Except AssistantError Unit :=
  if loss.isnan then .error .trainingDiverged else .ok ()

/-- The guard applied to the successive mini-batch losses of a training run:
the first NaN loss aborts, anything else continues. -/
def runLossGuards : List PyFloat → Except AssistantError Unit
  | [] => .ok ()
  | loss :: rest =>
    match lossGuard loss with
    | .error e => .error e
    | .ok _ => runLossGuards rest

/-- Persistence outcome of a training run whose mini-batch losses are
`losses` and whose final state would be `state`: the source reaches the
`pickle.dump` at lines 341-342 only if no guard fired. -/
def persistedArtifact (losses : List PyFloat) (state : ModelState) : Option ModelState :=
  match runLossGuards losses with
  | .ok _ => some state
  | .error _ => none

/-- Two-decimal score rendering used in the reply labels (the `f"{score:.2f}"`
format of source lines 407 and 427); the binary-float representation detail
is abstracted into round-half-up on rationals.  No claim depends on the
rendering. -/
def formatScore (q : ℚ) : String :=
  let scaled : Int := Rat.floor (q * 100 + 1 / 2)
  let ip := scaled / 100
  let fp := (scaled % 100).natAbs
  toString ip ++ "." ++ (if fp < 10 then "0" else "") ++ toString fp

/-- Similarity value at a chunk index (`similarities[idx]`); all indices
used by the source are in bounds. -/
def simAt (sims : List ℚ) (i : Nat) : ℚ := sims.getD i 0

/-- Stable-descending insertion of index `i` into an already ranked index
list: `i` goes before the first index of strictly smaller score, after all
indices of greater or equal score. -/
def insertDescIdx (sims : List ℚ) (i : Nat) : List Nat → List Nat
  | [] => [i]
  | j :: rest =>
    if simAt sims j < simAt sims i then i :: j :: rest else j :: insertDescIdx sims i rest

/-- Embeds `sorted(range(len(sims)), key=lambda idx: sims[idx], reverse=True)`
(source lines 400 and 425): Python's sort is stable, and with `reverse=True`
elements of equal key still keep their original order; inserting the indices
in increasing order realises exactly that. -/
def sortIdxDesc (sims : List ℚ) : List Nat :=
  (List.range sims.length).foldl (fun acc i => insertDescIdx sims i acc) []

/-- Top-k selection of source lines 399-400 and 424-425: full stable
descending ranking, truncated to `min k (len sims)`. -/
def topIndices (sims : List ℚ) (k : Nat) : List Nat :=
  (sortIdxDesc sims).take (min k sims.length)

/-- Ranking order between two chunk indices: strictly higher score first,
ties broken by the original chunk order. -/
def rankRel (sims : List ℚ) (a b : Nat) : Prop :=
  simAt sims b < simAt sims a ∨ (simAt sims a = simAt sims b ∧ a < b)

/-- Embeds `_cosine_similarity` (source lines 369-370). -/
def _cosine_similarity (matrix : List (List ℚ)) (vector : List ℚ) : List ℚ :=
  matrix.map fun row => _vector_dot row vector

/-- One supporting-chunk entry of the reply (source lines 403-407): label
with source path and formatted score, snippet is the stripped chunk text. -/
def supportingEntry (state : ModelState) (sims : List ℚ) (idx : Nat) : String × String :=
  let score := simAt sims idx
  let snippet := pyStrip (state.chunk_texts.getD idx "")
  let source := state.chunk_sources.getD idx ("", "")
  (source.1 ++ " (relevancia " ++ formatScore score ++ ")", snippet)

/-- Embeds `generate_assistant_reply` (source lines 373-430) against an
explicitly passed, already loaded model state (the `pickle.load` and version
check of `_load_state` are the model-store side, not part of the claims on
this function). -/
def generate_assistant_reply (msqrt : ℚ → ℚ) (state : ModelState) (question : String)
    (command_corpus : List (String × String)) (top_k_chunks top_k_commands : Nat) :
    Except AssistantError AssistantReply :=
  let vocab := state.vocab
  let weights := state.encoder_weights
  let bias := state.encoder_bias
  let question_tokens := _tokenize question
  let query_vector := _vectorize question_tokens vocab
  if query_vector.sum = 0 then .error .unknownVocabularyQuery
  else
    let query_embedding := _encode_vector msqrt query_vector weights bias
    let similarities := _cosine_similarity state.chunk_embeddings query_embedding
    let ordered_indices := topIndices similarities top_k_chunks
    let supporting := ordered_indices.map (supportingEntry state similarities)
    let kept := command_corpus.filterMap fun nd =>
      let tokens := _tokenize (nd.1 ++ " " ++ nd.2)
      let vector := _vectorize tokens vocab
      if vector.sum = 0 then none else some (nd.1, vector)
    let cmd_scores := kept.map fun nv =>
      _vector_dot (_encode_vector msqrt nv.2 weights bias) query_embedding
    let ordered_cmd := topIndices cmd_scores top_k_commands
    let command_suggestions := ordered_cmd.map fun idx =>
      ((kept.map fun nv => nv.1).getD idx "",
        "Coincidencia " ++ formatScore (simAt cmd_scores idx))
    let answer := match supporting with
      | [] => "No encontré un fragmento relevante en el repositorio."
      | s :: _ => s.2
    .ok { answer := answer, supporting_chunks := supporting,
          command_suggestions := command_suggestions }

/-- Generator stand-in drawing constantly zero and shuffling identically;
used to evaluate concrete training runs. -/
def zeroRandom : PyRandom :=
  { gauss := fun s => (0, s + 1), shuffleNat := fun s l => (l, s) }

/-- Square-root stand-in adequate for runs where every value passed to
`math.sqrt` is zero. -/
def sqrtZero : ℚ → ℚ := fun _ => 0

/-- Square-root stand-in adequate for runs where the values passed to
`math.sqrt` are among 0, 1 and 25. -/
def sqrtTable : ℚ → ℚ := fun q => if q = 1 then 1 else if q = 25 then 5 else 0

/-
Theorems.
-/

/-- The first `runLossGuards` error is the divergence error, and it fires
exactly when some loss in the list is NaN. -/
theorem runLossGuards_error_iff (losses : List PyFloat) :
    runLossGuards losses = .error .trainingDiverged ↔ ∃ l ∈ losses, l.isnan = true := by
  induction losses with
  | nil => simp [runLossGuards]
  | cons loss rest ih =>
    by_cases h : loss.isnan = true
    · simp [runLossGuards, lossGuard, h]
    · simp only [Bool.not_eq_true] at h
      simp [runLossGuards, lossGuard, h, ih]

/-- Claim C1 (counterexample): an infinite mini-batch loss is not a finite
number, yet the divergence guard of the training loop does not fire on it —
`math.isnan` is false on infinities — so training continues and the artifact
is still persisted. -/
theorem c1_counterexample :
    PyFloat.posInf.isfinite = false ∧
    runLossGuards [PyFloat.posInf] = .ok () ∧
    persistedArtifact [PyFloat.posInf]
        { version := 2, vocab := [("hola", 0)], hidden_size := 1,
          encoder_weights := [[0]], encoder_bias := [0], chunk_texts := ["hola hola"],
          chunk_sources := [("d", "hola hola")], chunk_embeddings := [[0]] } =
      some
        { version := 2, vocab := [("hola", 0)], hidden_size := 1,
          encoder_weights := [[0]], encoder_bias := [0], chunk_texts := ["hola hola"],
          chunk_sources := [("d", "hola hola")], chunk_embeddings := [[0]] } := by
  refine ⟨rfl, rfl, rfl⟩

/-- Claim C1 (amended): the training loop aborts with `TrainingDivergedError`
exactly when a mini-batch loss is NaN — an infinite loss does not abort that
mini-batch — and when the guard fires, no model artifact is persisted. -/
theorem c1_nan_guard :
    (∀ loss : PyFloat, lossGuard loss = .error .trainingDiverged ↔ loss.isnan = true) ∧
    (∀ (losses : List PyFloat) (st : ModelState),
      (∃ l ∈ losses, l.isnan = true) → persistedArtifact losses st = none) ∧
    (∀ (losses : List PyFloat) (st : ModelState),
      (∀ l ∈ losses, l.isnan = false) → persistedArtifact losses st = some st) := by
  refine ⟨?_, ?_, ?_⟩
  · intro loss
    by_cases h : loss.isnan = true
    · simp [lossGuard, h]
    · simp only [Bool.not_eq_true] at h
      simp [lossGuard, h]
  · intro losses st h
    have := (runLossGuards_error_iff losses).mpr h
    simp [persistedArtifact, this]
  · intro losses st h
    have hok : runLossGuards losses = .ok () := by
      induction losses with
      | nil => rfl
      | cons loss rest ih =>
        have h1 : loss.isnan = false := h loss (by simp)
        simp only [runLossGuards, lossGuard, h1]
        exact ih fun l hl => h l (by simp [hl])
    simp [persistedArtifact, hok]

/-- Witness for `c1_nan_guard` at concrete inputs: a NaN loss persists
nothing, an all-finite loss list persists the state. -/
theorem c1_nan_guard_witness :
    persistedArtifact [PyFloat.nan]
        { version := 2, vocab := [], hidden_size := 0, encoder_weights := [],
          encoder_bias := [], chunk_texts := [], chunk_sources := [],
          chunk_embeddings := [] } = none ∧
    persistedArtifact [PyFloat.finite 3, PyFloat.finite 0]
        { version := 2, vocab := [], hidden_size := 0, encoder_weights := [],
          encoder_bias := [], chunk_texts := [], chunk_sources := [],
          chunk_embeddings := [] } =
      some
        { version := 2, vocab := [], hidden_size := 0, encoder_weights := [],
          encoder_bias := [], chunk_texts := [], chunk_sources := [],
          chunk_embeddings := [] } :=
  ⟨c1_nan_guard.2.1 [PyFloat.nan] _ ⟨PyFloat.nan, by simp, rfl⟩,
   c1_nan_guard.2.2 [PyFloat.finite 3, PyFloat.finite 0] _ (by decide)⟩

/-- Claim C2: training is a pure function of the corpus and the
hyperparameters — the pseudo-random generator is the fixed library generator
seeded with the constant 42 (source line 275), shared by any two runs — so
two runs over an identically-ordered corpus with identical hyperparameters
return identical results; in particular identical vocabulary ordering,
encoder weights and biases, and chunk embeddings. -/
theorem c2_training_determinism (rng : PyRandom) (msqrt : ℚ → ℚ)
    (docs1 docs2 : List (String × String)) (ep1 ep2 hs1 hs2 bs1 bs2 mc1 mc2 mf1 mf2 : Nat)
    (cap1 cap2 : Option Nat) (lr1 lr2 : ℚ)
    (hdocs : docs1 = docs2) (hep : ep1 = ep2) (hhs : hs1 = hs2) (hbs : bs1 = bs2)
    (hmc : mc1 = mc2) (hmf : mf1 = mf2) (hcap : cap1 = cap2) (hlr : lr1 = lr2) :
    train_assistant_knowledge_base rng msqrt docs1 ep1 hs1 bs1 mc1 mf1 cap1 lr1 =
      train_assistant_knowledge_base rng msqrt docs2 ep2 hs2 bs2 mc2 mf2 cap2 lr2 ∧
    ∀ st1 st2,
      train_assistant_knowledge_base rng msqrt docs1 ep1 hs1 bs1 mc1 mf1 cap1 lr1 = .ok st1 →
      train_assistant_knowledge_base rng msqrt docs2 ep2 hs2 bs2 mc2 mf2 cap2 lr2 = .ok st2 →
      st1.vocab = st2.vocab ∧ st1.encoder_weights = st2.encoder_weights ∧
        st1.encoder_bias = st2.encoder_bias ∧
        st1.chunk_embeddings = st2.chunk_embeddings := by
  subst hdocs hep hhs hbs hmc hmf hcap hlr
  refine ⟨rfl, ?_⟩
  intro st1 st2 h1 h2
  rw [h1] at h2
  cases h2
  exact ⟨rfl, rfl, rfl, rfl⟩

/-- Witness for `c2_training_determinism`: a concrete pair of identical runs
agrees on every persisted component. -/
theorem c2_training_determinism_witness :
    train_assistant_knowledge_base zeroRandom sqrtZero [("d", "hola hola")] 0 1 1 1200 2 none 1 =
      train_assistant_knowledge_base zeroRandom sqrtZero [("d", "hola hola")] 0 1 1 1200 2 none 1 :=
  (c2_training_determinism zeroRandom sqrtZero [("d", "hola hola")] [("d", "hola hola")]
    0 0 1 1 1 1 1200 1200 2 2 none none 1 1 rfl rfl rfl rfl rfl rfl rfl rfl).1

/-- Claim C9: for a fixed tokenized corpus the vocabulary size is
monotonically non-increasing in the minimum-frequency threshold. -/
theorem c9_vocabulary_monotonicity (chunks : List (List String)) (m1 m2 : Nat)
    (h : m1 ≤ m2) :
    (_build_vocabulary chunks m2).length ≤ (_build_vocabulary chunks m1).length := by
  have key : ∀ m, (_build_vocabulary chunks m).length =
      ((buildCounter chunks).filter fun item => m ≤ item.2).length := by
    intro m
    unfold _build_vocabulary
    rw [List.length_map, List.enum_length,
      (List.perm_insertionSort vocabOrder _).length_eq]
  rw [key m1, key m2]
  refine List.Sublist.length_le (List.monotone_filter_right _ ?_)
  intro a ha
  simp only [decide_eq_true_eq] at ha ⊢
  omega

/-- Witness for `c9_vocabulary_monotonicity` at a concrete corpus and
thresholds. -/
theorem c9_vocabulary_monotonicity_witness :
    (_build_vocabulary [["a", "b", "a"]] 2).length ≤
      (_build_vocabulary [["a", "b", "a"]] 1).length :=
  c9_vocabulary_monotonicity [["a", "b", "a"]] 1 2 (by decide)

/-- Reading a nonnegative list at any index with default 0 is nonnegative. -/
theorem getD_nonneg (l : List ℚ) (i : Nat) (hl : ∀ x ∈ l, 0 ≤ x) : 0 ≤ l.getD i 0 := by
  induction l generalizing i with
  | nil => simp
  | cons x xs ih =>
    cases i with
    | zero => simpa using hl x (by simp)
    | succ n => exact ih n fun y hy => hl y (by simp [hy])

/-- Bumping one in-range entry by `c` raises the list sum by `c`. -/
theorem sum_set_getD_add (l : List ℚ) (i : Nat) (c : ℚ) (h : i < l.length) :
    (l.set i (l.getD i 0 + c)).sum = l.sum + c := by
  induction l generalizing i with
  | nil => simp at h
  | cons x xs ih =>
    cases i with
    | zero => simp [List.sum_cons]; ring
    | succ n =>
      simp only [List.getD_cons_succ, List.set_cons_succ, List.sum_cons]
      rw [ih n (by simpa using h)]
      ring

/-- A successful vocabulary lookup returns the second component of some
stored pair. -/
theorem lookup_mem_snd :
    ∀ {l : List (String × Nat)} {t : String} {idx : Nat},
      l.lookup t = some idx → ∃ p ∈ l, p.2 = idx := by
  intro l
  induction l with
  | nil => intro t idx h; simp [List.lookup] at h
  | cons p rest ih =>
    intro t idx h
    obtain ⟨k, v⟩ := p
    rw [List.lookup] at h
    by_cases hk : t = k
    · simp [hk] at h
      exact ⟨(k, v), by simp, h⟩
    · have hbeq : (t == k) = false := by simpa using hk
      rw [hbeq] at h
      obtain ⟨q, hq, hq2⟩ := ih h
      exact ⟨q, by simp [hq], hq2⟩

/-- Under the well-formedness invariant of a built vocabulary, every index a
lookup can return is in range. -/
theorem lookup_snd_lt (vocab : List (String × Nat))
    (hwf : ∀ p ∈ vocab, p.2 < vocab.length) (t : String) (idx : Nat)
    (h : vocab.lookup t = some idx) : idx < vocab.length := by
  obtain ⟨p, hp, hp2⟩ := lookup_mem_snd h
  exact hp2 ▸ hwf p hp

/-- The count-accumulation fold of `_vectorize` preserves the vector length. -/
theorem vectorizeFold_length (vocab : List (String × Nat)) (tokens : List String) :
    ∀ v : List ℚ, (tokens.foldl (vectorizeStep vocab) v).length = v.length := by
  induction tokens with
  | nil => intro v; rfl
  | cons t ts ih =>
    intro v
    rw [List.foldl_cons, ih]
    unfold vectorizeStep
    cases h : vocab.lookup t <;> simp

/-- The count-accumulation fold of `_vectorize` preserves nonnegativity. -/
theorem vectorizeFold_nonneg (vocab : List (String × Nat)) (tokens : List String) :
    ∀ v : List ℚ, (∀ x ∈ v, 0 ≤ x) →
      ∀ x ∈ tokens.foldl (vectorizeStep vocab) v, 0 ≤ x := by
  induction tokens with
  | nil => intro v hv; simpa using hv
  | cons t ts ih =>
    intro v hv
    rw [List.foldl_cons]
    apply ih
    intro x hx
    unfold vectorizeStep at hx
    cases h : vocab.lookup t with
    | none => rw [h] at hx; exact hv x hx
    | some idx =>
      rw [h] at hx
      rcases List.mem_or_eq_of_mem_set hx with h1 | h1
      · exact hv x h1
      · subst h1
        have := getD_nonneg v idx hv
        linarith

/-- The count-accumulation fold of `_vectorize` adds exactly one per known
token: the final sum is the starting sum plus the number of token
occurrences found in the vocabulary. -/
theorem vectorizeFold_sum (vocab : List (String × Nat))
    (hwf : ∀ p ∈ vocab, p.2 < vocab.length) (tokens : List String) :
    ∀ v : List ℚ, v.length = vocab.length →
      (tokens.foldl (vectorizeStep vocab) v).sum =
        v.sum + ((tokens.filter fun t => (vocab.lookup t).isSome).length : ℚ) := by
  induction tokens with
  | nil => intro v _; simp
  | cons t ts ih =>
    intro v hv
    rw [List.foldl_cons]
    cases h : vocab.lookup t with
    | none =>
      have hstep : vectorizeStep vocab v t = v := by unfold vectorizeStep; rw [h]
      rw [hstep, ih v hv]
      simp [List.filter_cons, h]
    | some idx =>
      have hidx : idx < v.length := by rw [hv]; exact lookup_snd_lt vocab hwf t idx h
      have hstep : vectorizeStep vocab v t = v.set idx (v.getD idx 0 + 1) := by
        unfold vectorizeStep; rw [h]
      rw [hstep, ih _ (by simpa using hv), sum_set_getD_add v idx 1 hidx]
      simp [List.filter_cons, h]
      ring

/-- When no token is in the vocabulary, the count-accumulation fold leaves
the vector untouched. -/
theorem vectorizeFold_unknown (vocab : List (String × Nat)) (tokens : List String)
    (h : ∀ t ∈ tokens, vocab.lookup t = none) :
    ∀ v : List ℚ, tokens.foldl (vectorizeStep vocab) v = v := by
  induction tokens with
  | nil => intro v; rfl
  | cons t ts ih =>
    intro v
    rw [List.foldl_cons]
    have hstep : vectorizeStep vocab v t = v := by
      unfold vectorizeStep; rw [h t (by simp)]
    rw [hstep]
    exact ih (fun u hu => h u (by simp [hu])) v

/-- Dividing every entry by a constant divides the sum. -/
theorem sum_map_div (l : List ℚ) (c : ℚ) : (l.map fun x => x / c).sum = l.sum / c := by
  induction l with
  | nil => simp
  | cons x xs ih => simp [ih, add_div]

/-- Core of the vector invariant: with at least one known token,
`_vectorize` produces nonnegative entries of sum exactly 1. -/
theorem vectorize_known (tokens : List String) (vocab : List (String × Nat))
    (hwf : ∀ p ∈ vocab, p.2 < vocab.length)
    (hex : ∃ t ∈ tokens, (vocab.lookup t).isSome) :
    (∀ x ∈ _vectorize tokens vocab, 0 ≤ x) ∧ (_vectorize tokens vocab).sum = 1 := by
  obtain ⟨t, ht, hsome⟩ := hex
  have hnn : ∀ x ∈ vectorizeCounts tokens vocab, 0 ≤ x := by
    apply vectorizeFold_nonneg
    intro x hx
    rw [List.eq_of_mem_replicate hx]
  have hsum : (vectorizeCounts tokens vocab).sum =
      ((tokens.filter fun u => (vocab.lookup u).isSome).length : ℚ) := by
    unfold vectorizeCounts
    rw [vectorizeFold_sum vocab hwf tokens _ (by simp)]
    simp [List.sum_replicate]
  have hpos : 0 < (vectorizeCounts tokens vocab).sum := by
    rw [hsum]
    have hmem : t ∈ tokens.filter fun u => (vocab.lookup u).isSome :=
      List.mem_filter.mpr ⟨ht, hsome⟩
    have hlen : 0 < (tokens.filter fun u => (vocab.lookup u).isSome).length :=
      List.length_pos.mpr (List.ne_nil_of_mem hmem)
    exact_mod_cast hlen
  have hvec : _vectorize tokens vocab =
      (vectorizeCounts tokens vocab).map
        fun value => value / (vectorizeCounts tokens vocab).sum := by
    unfold _vectorize
    simp only [if_pos hpos]
  rw [hvec]
  constructor
  · intro x hx
    simp only [List.mem_map] at hx
    obtain ⟨y, hy, rfl⟩ := hx
    exact div_nonneg (hnn y hy) (le_of_lt hpos)
  · rw [sum_map_div, div_self (ne_of_gt hpos)]

/-- Core of the vector invariant: with no known token, `_vectorize` returns
the all-zero vector. -/
theorem vectorize_unknown (tokens : List String) (vocab : List (String × Nat))
    (hnone : ∀ t ∈ tokens, vocab.lookup t = none) :
    _vectorize tokens vocab = List.replicate vocab.length 0 := by
  have hcounts : vectorizeCounts tokens vocab = List.replicate vocab.length 0 :=
    vectorizeFold_unknown vocab tokens hnone _
  unfold _vectorize
  rw [hcounts]
  simp [List.sum_replicate]

/-- The vector of `_vectorize` sums to zero exactly when no token is in the
vocabulary. -/
theorem vectorize_sum_eq_zero_iff (tokens : List String) (vocab : List (String × Nat))
    (hwf : ∀ p ∈ vocab, p.2 < vocab.length) :
    (_vectorize tokens vocab).sum = 0 ↔ ∀ t ∈ tokens, vocab.lookup t = none := by
  constructor
  · intro h
    by_contra hc
    push_neg at hc
    obtain ⟨t, ht, hne⟩ := hc
    have hsome : (vocab.lookup t).isSome := Option.isSome_iff_ne_none.mpr hne
    have := (vectorize_known tokens vocab hwf ⟨t, ht, hsome⟩).2
    rw [h] at this
    exact absurd this (by norm_num)
  · intro hnone
    rw [vectorize_unknown tokens vocab hnone]
    simp [List.sum_replicate]

/-- Claim C6: for every token list with at least one token in the
vocabulary, `_vectorize` returns a vector with nonnegative entries summing
exactly to 1; for a token list with no known token it returns the all-zero
vector.  The hypothesis is the invariant of every built vocabulary: stored
indices are below the vocabulary size. -/
theorem c6_vector_invariant (tokens : List String) (vocab : List (String × Nat))
    (hwf : ∀ p ∈ vocab, p.2 < vocab.length) :
    ((∃ t ∈ tokens, (vocab.lookup t).isSome) →
      (∀ x ∈ _vectorize tokens vocab, 0 ≤ x) ∧ (_vectorize tokens vocab).sum = 1) ∧
    ((∀ t ∈ tokens, vocab.lookup t = none) →
      _vectorize tokens vocab = List.replicate vocab.length 0) :=
  ⟨fun hex => vectorize_known tokens vocab hwf hex,
   fun hnone => vectorize_unknown tokens vocab hnone⟩

/-- Witness for `c6_vector_invariant`: a mixed known/unknown token list gives
a nonnegative unit-sum vector, an all-unknown token list gives the zero
vector. -/
theorem c6_vector_invariant_witness :
    ((∀ x ∈ _vectorize ["a", "zz"] [("a", 0), ("b", 1)], 0 ≤ x) ∧
      (_vectorize ["a", "zz"] [("a", 0), ("b", 1)]).sum = 1) ∧
    _vectorize ["zz"] [("a", 0)] = List.replicate 1 0 :=
  ⟨(c6_vector_invariant ["a", "zz"] [("a", 0), ("b", 1)] (by decide)).1
      ⟨"a", by decide, by decide⟩,
   (c6_vector_invariant ["zz"] [("a", 0)] (by decide)).2 (by decide)⟩

/-- Claim C3: whenever the term-frequency vector of the question against the
loaded vocabulary sums to zero, `generate_assistant_reply` fails with
`UnknownVocabularyQueryError` (it returns no reply at all); and, under the
index invariant of a built vocabulary, the vector sums to zero exactly when
no token of the question is in the vocabulary. -/
theorem c3_unknown_vocabulary_query (msqrt : ℚ → ℚ) (state : ModelState)
    (question : String) (command_corpus : List (String × String))
    (top_k_chunks top_k_commands : Nat) :
    ((_vectorize (_tokenize question) state.vocab).sum = 0 →
      generate_assistant_reply msqrt state question command_corpus
          top_k_chunks top_k_commands = .error .unknownVocabularyQuery) ∧
    ((∀ p ∈ state.vocab, p.2 < state.vocab.length) →
      ((_vectorize (_tokenize question) state.vocab).sum = 0 ↔
        ∀ t ∈ _tokenize question, state.vocab.lookup t = none)) := by
  constructor
  · intro h
    unfold generate_assistant_reply
    rw [if_pos h]
  · intro hwf
    exact vectorize_sum_eq_zero_iff (_tokenize question) state.vocab hwf

/-- Witness for `c3_unknown_vocabulary_query`: a query sharing no vocabulary
with the trained state is rejected with the dedicated error. -/
theorem c3_unknown_vocabulary_query_witness :
    generate_assistant_reply sqrtTable
        { version := 2, vocab := [("cluster", 0)], hidden_size := 1,
          encoder_weights := [[1]], encoder_bias := [0], chunk_texts := ["c1"],
          chunk_sources := [("p1", "c1")], chunk_embeddings := [[1]] }
        "xyzzy plugh" [] 3 3 = .error .unknownVocabularyQuery ∧
    ((_vectorize (_tokenize "xyzzy plugh") [("cluster", 0)]).sum = 0 ↔
      ∀ t ∈ _tokenize "xyzzy plugh", List.lookup t [("cluster", 0)] = none) :=
  ⟨(c3_unknown_vocabulary_query sqrtTable
      { version := 2, vocab := [("cluster", 0)], hidden_size := 1,
        encoder_weights := [[1]], encoder_bias := [0], chunk_texts := ["c1"],
        chunk_sources := [("p1", "c1")], chunk_embeddings := [[1]] }
      "xyzzy plugh" [] 3 3).1
      ((vectorize_sum_eq_zero_iff (_tokenize "xyzzy plugh") [("cluster", 0)]
          (by decide)).mpr (by decide)),
   (c3_unknown_vocabulary_query sqrtTable
      { version := 2, vocab := [("cluster", 0)], hidden_size := 1,
        encoder_weights := [[1]], encoder_bias := [0], chunk_texts := ["c1"],
        chunk_sources := [("p1", "c1")], chunk_embeddings := [[1]] }
      "xyzzy plugh" [] 3 3).2 (by decide)⟩

/-- A sum of squares is nonnegative. -/
theorem normSq_nonneg (l : List ℚ) : 0 ≤ normSq l := by
  unfold normSq
  induction l with
  | nil => simp
  | cons x xs ih =>
    simp only [List.map_cons, List.sum_cons]
    nlinarith [mul_self_nonneg x]

/-- A sum of squares vanishes exactly on the zero vector. -/
theorem normSq_eq_zero_iff (l : List ℚ) : normSq l = 0 ↔ ∀ x ∈ l, x = 0 := by
  induction l with
  | nil => simp [normSq]
  | cons x xs ih =>
    unfold normSq at ih ⊢
    simp only [List.map_cons, List.sum_cons, List.mem_cons]
    constructor
    · intro h
      have hx : 0 ≤ x * x := mul_self_nonneg x
      have hxs : 0 ≤ (xs.map fun value => value * value).sum := normSq_nonneg xs
      have h1 : x * x = 0 := by linarith
      have h2 : (xs.map fun value => value * value).sum = 0 := by linarith
      exact fun y hy => hy.elim (fun hy => hy ▸ mul_self_eq_zero.mp h1)
        (fun hy => ih.mp h2 y hy)
    · intro h
      have hx : x = 0 := h x (Or.inl rfl)
      have hxs := ih.mpr fun y hy => h y (Or.inr hy)
      rw [hx, hxs]
      ring

/-- Dividing every entry by a nonzero constant divides the sum of squares by
the square of the constant. -/
theorem normSq_map_div (l : List ℚ) (c : ℚ) (hc : c ≠ 0) :
    normSq (l.map fun x => x / c) = normSq l / (c * c) := by
  unfold normSq
  induction l with
  | nil => simp
  | cons x xs ih =>
    simp only [List.map_cons, List.sum_cons, ih]
    field_simp

/-- Arithmetic core of the Cauchy-Schwarz induction step. -/
theorem cauchy_step (x y d nx ny : ℚ) (hx : 0 ≤ nx) (hy : 0 ≤ ny)
    (hd : d * d ≤ nx * ny) :
    (x * y + d) * (x * y + d) ≤ (x * x + nx) * (y * y + ny) := by
  have key : 2 * (x * y) * d ≤ x * x * ny + y * y * nx := by
    rcases le_or_lt (2 * (x * y) * d) 0 with h | h
    · nlinarith [mul_self_nonneg x, mul_self_nonneg y, mul_nonneg (mul_nonneg hx hy) hx]
    · have hb : 0 ≤ x * x * ny + y * y * nx := by
        nlinarith [mul_self_nonneg x, mul_self_nonneg y]
      have hsq : (2 * (x * y) * d) * (2 * (x * y) * d) ≤
          (x * x * ny + y * y * nx) * (x * x * ny + y * y * nx) := by
        nlinarith [sq_nonneg (x * x * ny - y * y * nx), mul_self_nonneg (x * y)]
      nlinarith [hsq, hb, h]
  nlinarith [key, hd]

/-- Cauchy-Schwarz for rational lists: the square of the dot product is at
most the product of the sums of squares.  No length hypothesis is needed:
`zip` truncates to the shorter list and extra entries only enlarge the right
side. -/
theorem vector_dot_sq_le (l : List ℚ) : ∀ r : List ℚ,
    _vector_dot l r * _vector_dot l r ≤ normSq l * normSq r := by
  induction l with
  | nil =>
    intro r
    simp only [_vector_dot, normSq, List.zip_nil_left, List.map_nil, List.sum_nil,
      List.map_cons]
    nlinarith [normSq_nonneg r, normSq_nonneg ([] : List ℚ)]
  | cons x xs ih =>
    intro r
    cases r with
    | nil =>
      simp only [_vector_dot, normSq, List.zip_nil_right, List.map_nil, List.sum_nil]
      nlinarith [normSq_nonneg (x :: xs), normSq_nonneg ([] : List ℚ)]
    | cons y ys =>
      have hdot : _vector_dot (x :: xs) (y :: ys) = x * y + _vector_dot xs ys := by
        simp [_vector_dot, List.zip_cons_cons]
      have hnl : normSq (x :: xs) = x * x + normSq xs := by simp [normSq]
      have hnr : normSq (y :: ys) = y * y + normSq ys := by simp [normSq]
      rw [hdot, hnl, hnr]
      exact cauchy_step x y (_vector_dot xs ys) (normSq xs) (normSq ys)
        (normSq_nonneg xs) (normSq_nonneg ys) (ih ys)

/-- A dot product of entrywise nonnegative lists is nonnegative. -/
theorem vector_dot_nonneg (l r : List ℚ) (hl : ∀ x ∈ l, 0 ≤ x)
    (hr : ∀ x ∈ r, 0 ≤ x) : 0 ≤ _vector_dot l r := by
  unfold _vector_dot
  apply List.sum_nonneg
  intro x hx
  simp only [List.mem_map] at hx
  obtain ⟨p, hp, rfl⟩ := hx
  obtain ⟨h1, h2⟩ := List.of_mem_zip hp
  exact mul_nonneg (hl p.1 h1) (hr p.2 h2)

/-- A dot product with an all-zero left operand vanishes. -/
theorem vector_dot_zero_left (l r : List ℚ) (hl : ∀ x ∈ l, x = 0) :
    _vector_dot l r = 0 := by
  unfold _vector_dot
  apply List.sum_eq_zero
  intro x hx
  simp only [List.mem_map] at hx
  obtain ⟨p, hp, rfl⟩ := hx
  rw [hl p.1 (List.of_mem_zip hp).1]
  ring

/-- A dot product with an all-zero right operand vanishes. -/
theorem vector_dot_zero_right (l r : List ℚ) (hr : ∀ x ∈ r, x = 0) :
    _vector_dot l r = 0 := by
  unfold _vector_dot
  apply List.sum_eq_zero
  intro x hx
  simp only [List.mem_map] at hx
  obtain ⟨p, hp, rfl⟩ := hx
  rw [hr p.2 (List.of_mem_zip hp).2]
  ring

/-- The pre-normalisation activation is entrywise nonnegative (it is a ReLU
output). -/
theorem preActivation_nonneg (v : List ℚ) (w : List (List ℚ)) (b : List ℚ) :
    ∀ x ∈ preActivation v w b, 0 ≤ x := by
  intro x hx
  unfold preActivation at hx
  simp only [List.mem_map] at hx
  obtain ⟨y, _, rfl⟩ := hx
  exact le_max_right y 0

/-- Core facts about `_encode_vector` under an exact square root: the result
is entrywise nonnegative, and it is either all zero or of unit sum of
squares. -/
theorem encode_vector_cases (msqrt : ℚ → ℚ) (v : List ℚ) (w : List (List ℚ))
    (b : List ℚ) (hs : sqrtSpec msqrt (normSq (preActivation v w b))) :
    (∀ x ∈ _encode_vector msqrt v w b, 0 ≤ x) ∧
    ((∀ x ∈ _encode_vector msqrt v w b, x = 0) ∨
      normSq (_encode_vector msqrt v w b) = 1) := by
  by_cases h : msqrt (normSq (preActivation v w b)) = 0
  · have hz : normSq (preActivation v w b) = 0 := by rw [← hs.2, h]; ring
    have hall : ∀ x ∈ preActivation v w b, x = 0 :=
      (normSq_eq_zero_iff (preActivation v w b)).mp hz
    have henc : _encode_vector msqrt v w b = preActivation v w b := by
      unfold _encode_vector
      rw [if_pos h]
    rw [henc]
    exact ⟨fun x hx => le_of_eq (hall x hx).symm, Or.inl hall⟩
  · have hpos : 0 < msqrt (normSq (preActivation v w b)) :=
      lt_of_le_of_ne hs.1 (Ne.symm h)
    have henc : _encode_vector msqrt v w b =
        (preActivation v w b).map
          fun value => value / msqrt (normSq (preActivation v w b)) := by
      unfold _encode_vector
      rw [if_neg h]
    have hnz : normSq (preActivation v w b) ≠ 0 := by
      intro hc
      rw [hc] at hs
      have : msqrt 0 = 0 := mul_self_eq_zero.mp hs.2
      rw [hc] at h
      exact h this
    constructor
    · intro x hx
      rw [henc] at hx
      simp only [List.mem_map] at hx
      obtain ⟨y, hy, rfl⟩ := hx
      exact div_nonneg (preActivation_nonneg v w b y hy) (le_of_lt hpos)
    · right
      rw [henc, normSq_map_div _ _ h, hs.2, div_self hnz]

/-- Claim C10: every embedding produced by `_encode_vector` (query or
command) is entrywise nonnegative and either the zero vector or of unit L2
norm (stated as unit sum of squares, the exact form of a unit norm);
consequently the dot product of any two such embeddings — every similarity
score computed at query time — lies in the interval [0, 1].  The `sqrtSpec`
hypotheses say `math.sqrt` is exact at the one value where each encoding
consults it. -/
theorem c10_similarity_range (msqrt1 msqrt2 : ℚ → ℚ) (v1 v2 : List ℚ)
    (w1 w2 : List (List ℚ)) (b1 b2 : List ℚ)
    (h1 : sqrtSpec msqrt1 (normSq (preActivation v1 w1 b1)))
    (h2 : sqrtSpec msqrt2 (normSq (preActivation v2 w2 b2))) :
    (∀ x ∈ _encode_vector msqrt1 v1 w1 b1, 0 ≤ x) ∧
    ((∀ x ∈ _encode_vector msqrt1 v1 w1 b1, x = 0) ∨
      normSq (_encode_vector msqrt1 v1 w1 b1) = 1) ∧
    0 ≤ _vector_dot (_encode_vector msqrt1 v1 w1 b1) (_encode_vector msqrt2 v2 w2 b2) ∧
    _vector_dot (_encode_vector msqrt1 v1 w1 b1) (_encode_vector msqrt2 v2 w2 b2) ≤ 1 := by
  obtain ⟨hn1, hc1⟩ := encode_vector_cases msqrt1 v1 w1 b1 h1
  obtain ⟨hn2, hc2⟩ := encode_vector_cases msqrt2 v2 w2 b2 h2
  refine ⟨hn1, hc1, vector_dot_nonneg _ _ hn1 hn2, ?_⟩
  rcases hc1 with hz1 | hu1
  · rw [vector_dot_zero_left _ _ hz1]
    norm_num
  rcases hc2 with hz2 | hu2
  · rw [vector_dot_zero_right _ _ hz2]
    norm_num
  have hcs := vector_dot_sq_le (_encode_vector msqrt1 v1 w1 b1)
    (_encode_vector msqrt2 v2 w2 b2)
  rw [hu1, hu2] at hcs
  have hnn := vector_dot_nonneg _ _ hn1 hn2
  nlinarith [hcs, hnn]

/-- Witness for `c10_similarity_range`: the concrete encoding of the vector
[1] through weights [[3, 4]] (pre-normalisation activation [3, 4], norm 5)
is nonnegative, zero-or-unit, and its self-similarity lies in [0, 1]. -/
theorem c10_similarity_range_witness :
    (∀ x ∈ _encode_vector sqrtTable [1] [[3, 4]] [0, 0], 0 ≤ x) ∧
    ((∀ x ∈ _encode_vector sqrtTable [1] [[3, 4]] [0, 0], x = 0) ∨
      normSq (_encode_vector sqrtTable [1] [[3, 4]] [0, 0]) = 1) ∧
    0 ≤ _vector_dot (_encode_vector sqrtTable [1] [[3, 4]] [0, 0])
        (_encode_vector sqrtTable [1] [[3, 4]] [0, 0]) ∧
    _vector_dot (_encode_vector sqrtTable [1] [[3, 4]] [0, 0])
        (_encode_vector sqrtTable [1] [[3, 4]] [0, 0]) ≤ 1 :=
  c10_similarity_range sqrtTable sqrtTable [1] [1] [[3, 4]] [[3, 4]] [0, 0] [0, 0]
    (by norm_num [sqrtSpec, sqrtTable, normSq, preActivation, matAt, List.range_succ])
    (by norm_num [sqrtSpec, sqrtTable, normSq, preActivation, matAt, List.range_succ])

/-- Row-by-row invariant of `_normalize_rows` under an exact square root:
each output row is either the unchanged all-zero input row or has unit sum
of squares. -/
theorem normalize_rows_cases (msqrt : ℚ → ℚ) :
    ∀ matrix : List (List ℚ), (∀ row ∈ matrix, sqrtSpec msqrt (normSq row)) →
      ∀ p ∈ matrix.zip (_normalize_rows msqrt matrix),
        ((∀ x ∈ p.1, x = 0) ∧ p.2 = p.1) ∨ normSq p.2 = 1 := by
  intro matrix
  induction matrix with
  | nil =>
    intro _ p hp
    simp [_normalize_rows] at hp
  | cons row rest ih =>
    intro hs p hp
    have hrowspec := hs row (by simp)
    have hrest : ∀ r ∈ rest, sqrtSpec msqrt (normSq r) := fun r hr => hs r (by simp [hr])
    unfold _normalize_rows at hp
    simp only [List.map_cons, List.zip_cons_cons, List.mem_cons] at hp
    rcases hp with hp | hp
    · subst hp
      by_cases h : msqrt (normSq row) = 0
      · left
        have hz : normSq row = 0 := by rw [← hrowspec.2, h]; ring
        exact ⟨(normSq_eq_zero_iff row).mp hz, by simp [h]⟩
      · right
        have hnz : normSq row ≠ 0 := by
          intro hc
          rw [hc] at hrowspec h
          exact h (mul_self_eq_zero.mp hrowspec.2)
        simp only [if_neg h]
        rw [normSq_map_div _ _ h, hrowspec.2, div_self hnz]
    · exact ih hrest p (by simpa [_normalize_rows] using hp)

/-- Claim C7: every chunk embedding persisted by
`train_assistant_knowledge_base` is `_normalize_rows` applied to the
pre-normalisation ReLU activation of the corpus vectors through the final
encoder (second conjunct, stated for every run without hypotheses via
`Except.map`), and under an exact square root every such row is either unit
(sum of squares 1, the exact form of unit L2 norm) or the unchanged all-zero
activation row (first conjunct). -/
theorem c7_embedding_unit_norm :
    (∀ (msqrt : ℚ → ℚ) (matrix : List (List ℚ)),
      (∀ row ∈ matrix, sqrtSpec msqrt (normSq row)) →
      ∀ p ∈ matrix.zip (_normalize_rows msqrt matrix),
        ((∀ x ∈ p.1, x = 0) ∧ p.2 = p.1) ∨ normSq p.2 = 1) ∧
    (∀ (rng : PyRandom) (msqrt : ℚ → ℚ) (documents : List (String × String))
        (epochs hidden_size batch_size max_chars min_frequency : Nat)
        (max_chunks : Option Nat) (learning_rate : ℚ),
      (train_assistant_knowledge_base rng msqrt documents epochs hidden_size batch_size
          max_chars min_frequency max_chunks learning_rate).map
          (fun st => st.chunk_embeddings) =
        (train_assistant_knowledge_base rng msqrt documents epochs hidden_size batch_size
            max_chars min_frequency max_chunks learning_rate).map
          fun st =>
            _normalize_rows msqrt
              (_relu (_matrix_add_vector
                (_matmul (corpusVectors documents max_chars min_frequency max_chunks)
                  st.encoder_weights)
                st.encoder_bias))) := by
  constructor
  · exact normalize_rows_cases
  · intro rng msqrt documents epochs hidden_size batch_size max_chars min_frequency
      max_chunks learning_rate
    unfold train_assistant_knowledge_base corpusVectors
    cases h : _prepare_dataset documents max_chars min_frequency max_chunks with
    | error e => rfl
    | ok tup =>
      obtain ⟨chunks, sources, vocab, tokenized⟩ := tup
      rfl

/-- Witness for `c7_embedding_unit_norm`: in the concrete two-row activation
matrix [[3, 4], [0, 0]], the first normalised row has unit sum of squares. -/
theorem c7_embedding_unit_norm_witness :
    ((∀ x ∈ [(3 : ℚ), 4], x = 0) ∧
        ([(3 : ℚ) / 5, 4 / 5] : List ℚ) = [(3 : ℚ), 4]) ∨
      normSq ([(3 : ℚ) / 5, 4 / 5] : List ℚ) = 1 :=
  c7_embedding_unit_norm.1 sqrtTable [[3, 4], [0, 0]]
    (by norm_num [sqrtSpec, sqrtTable, normSq])
    (([(3 : ℚ), 4], [(3 : ℚ) / 5, 4 / 5]))
    (by norm_num [_normalize_rows, normSq, sqrtTable])

/-- Inserting an index produces a permutation of pushing it on top. -/
theorem insertDescIdx_perm (sims : List ℚ) (i : Nat) :
    ∀ acc : List Nat, List.Perm (insertDescIdx sims i acc) (i :: acc) := by
  intro acc
  induction acc with
  | nil => rfl
  | cons j rest ih =>
    unfold insertDescIdx
    by_cases h : simAt sims j < simAt sims i
    · rw [if_pos h]
    · rw [if_neg h]
      exact (ih.cons j).trans (List.Perm.swap i j rest)

/-- Membership after insertion. -/
theorem mem_insertDescIdx (sims : List ℚ) (i : Nat) (acc : List Nat) (k : Nat)
    (hk : k ∈ insertDescIdx sims i acc) : k = i ∨ k ∈ acc := by
  have := (insertDescIdx_perm sims i acc).mem_iff.mp hk
  simpa using this

/-- The ranking relation transfers to any index of strictly larger score. -/
theorem rankRel_trans_lt (sims : List ℚ) (i j k : Nat)
    (hjk : rankRel sims j k) (h : simAt sims j < simAt sims i) : rankRel sims i k := by
  rcases hjk with h1 | ⟨h1, _⟩
  · exact Or.inl (h1.trans h)
  · exact Or.inl (h1 ▸ h)

/-- Inserting an index that is larger than every present index preserves the
ranking pairwise property. -/
theorem insertDescIdx_pairwise (sims : List ℚ) (i : Nat) :
    ∀ acc : List Nat, acc.Pairwise (rankRel sims) → (∀ j ∈ acc, j < i) →
      (insertDescIdx sims i acc).Pairwise (rankRel sims) := by
  intro acc
  induction acc with
  | nil => intro _ _; simp [insertDescIdx, List.Pairwise.nil]
  | cons j rest ih =>
    intro hp hlt
    rw [List.pairwise_cons] at hp
    unfold insertDescIdx
    by_cases h : simAt sims j < simAt sims i
    · rw [if_pos h]
      refine List.Pairwise.cons ?_ (List.Pairwise.cons hp.1 hp.2)
      intro k hk
      rcases List.mem_cons.mp hk with hk | hk
      · exact hk ▸ Or.inl h
      · exact rankRel_trans_lt sims i j k (hp.1 k hk) h
    · rw [if_neg h]
      refine List.Pairwise.cons ?_ (ih hp.2 fun a ha => hlt a (by simp [ha]))
      intro k hk
      rcases mem_insertDescIdx sims i rest k hk with hk | hk
      · subst hk
        rcases lt_or_eq_of_le (not_lt.mp h) with h2 | h2
        · exact Or.inl h2
        · exact Or.inr ⟨h2.symm, hlt j (by simp)⟩
      · exact hp.1 k hk

/-- Invariant of the index-insertion fold: starting from a ranked
accumulator whose indices all precede the remaining ones, the fold returns a
ranked permutation of the concatenation. -/
theorem sortfold_inv (sims : List ℚ) :
    ∀ (l : List Nat) (acc : List Nat), acc.Pairwise (rankRel sims) →
      (∀ a ∈ acc, ∀ b ∈ l, a < b) → l.Pairwise (· < ·) →
      (l.foldl (fun acc i => insertDescIdx sims i acc) acc).Pairwise (rankRel sims) ∧
        List.Perm (l.foldl (fun acc i => insertDescIdx sims i acc) acc) (acc ++ l) := by
  intro l
  induction l with
  | nil =>
    intro acc h1 _ _
    exact ⟨h1, by simp⟩
  | cons a l ih =>
    intro acc h1 h2 h3
    rw [List.pairwise_cons] at h3
    rw [List.foldl_cons]
    have hmem : ∀ x ∈ insertDescIdx sims a acc, ∀ b ∈ l, x < b := by
      intro x hx b hb
      rcases mem_insertDescIdx sims a acc x hx with hx | hx
      · exact hx ▸ h3.1 b hb
      · exact h2 x hx b (by simp [hb])
    obtain ⟨hpair, hperm⟩ := ih (insertDescIdx sims a acc)
      (insertDescIdx_pairwise sims a acc h1 fun j hj => h2 j hj a (by simp)) hmem h3.2
    refine ⟨hpair, hperm.trans ?_⟩
    have h4 : List.Perm (insertDescIdx sims a acc ++ l) ((a :: acc) ++ l) :=
      (insertDescIdx_perm sims a acc).append_right l
    exact h4.trans List.perm_middle.symm

/-- The full ranking of `sorted(range(n), key=..., reverse=True)` is a
permutation of the index range, pairwise ordered by score descending with
ties in original order. -/
theorem sortIdxDesc_spec (sims : List ℚ) :
    (sortIdxDesc sims).Pairwise (rankRel sims) ∧
      List.Perm (sortIdxDesc sims) (List.range sims.length) := by
  have := sortfold_inv sims (List.range sims.length) [] (by simp) (by simp)
    (List.pairwise_lt_range sims.length)
  exact ⟨this.1, by simpa using this.2⟩

/-- Claim C8: the query engine scores every stored chunk embedding by dot
product against the query embedding (`_cosine_similarity`), and the selected
index list is the prefix of length `min k n` of a ranking that is a
permutation of all chunk indices, pairwise sorted by score descending with
ties between equal scores broken by the original chunk order (first
conjunct); `generate_assistant_reply` builds its supporting chunks exactly
from that selection (second conjunct). -/
theorem c8_topk_ranking :
    (∀ (chunk_embeddings : List (List ℚ)) (query : List ℚ) (k : Nat),
      _cosine_similarity chunk_embeddings query =
          (chunk_embeddings.map fun row => _vector_dot row query) ∧
        List.Perm (sortIdxDesc (_cosine_similarity chunk_embeddings query))
          (List.range chunk_embeddings.length) ∧
        (sortIdxDesc (_cosine_similarity chunk_embeddings query)).Pairwise
          (rankRel (_cosine_similarity chunk_embeddings query)) ∧
        topIndices (_cosine_similarity chunk_embeddings query) k =
          (sortIdxDesc (_cosine_similarity chunk_embeddings query)).take
            (min k chunk_embeddings.length)) ∧
    (∀ (msqrt : ℚ → ℚ) (state : ModelState) (question : String)
        (command_corpus : List (String × String)) (top_k_chunks top_k_commands : Nat),
      (generate_assistant_reply msqrt state question command_corpus top_k_chunks
          top_k_commands).map (fun r => r.supporting_chunks) =
        (generate_assistant_reply msqrt state question command_corpus top_k_chunks
            top_k_commands).map fun _ =>
          (topIndices
              (_cosine_similarity state.chunk_embeddings
                (_encode_vector msqrt (_vectorize (_tokenize question) state.vocab)
                  state.encoder_weights state.encoder_bias))
              top_k_chunks).map
            (supportingEntry state
              (_cosine_similarity state.chunk_embeddings
                (_encode_vector msqrt (_vectorize (_tokenize question) state.vocab)
                  state.encoder_weights state.encoder_bias)))) := by
  constructor
  · intro chunk_embeddings query k
    have hlen : (_cosine_similarity chunk_embeddings query).length =
        chunk_embeddings.length := by
      unfold _cosine_similarity
      exact List.length_map _ _
    obtain ⟨hpair, hperm⟩ := sortIdxDesc_spec (_cosine_similarity chunk_embeddings query)
    refine ⟨rfl, hlen ▸ hperm, hpair, ?_⟩
    unfold topIndices
    rw [hlen]
  · intro msqrt state question command_corpus top_k_chunks top_k_commands
    unfold generate_assistant_reply
    by_cases h : (_vectorize (_tokenize question) state.vocab).sum = 0
    · rw [if_pos h]
      rfl
    · rw [if_neg h]
      rfl

/-- One `counterUpdate` bumps exactly the updated token count. -/
theorem countOf_counterUpdate (tok t : String) :
    ∀ c : List (String × Nat),
      countOf (counterUpdate c tok) t = countOf c t + (if t = tok then 1 else 0) := by
  intro c
  induction c with
  | nil =>
    unfold counterUpdate countOf
    by_cases h : t = tok
    · simp [h, List.lookup]
    · have hbeq : (t == tok) = false := by simpa using h
      simp [h, List.lookup, hbeq]
  | cons p rest ih =>
    obtain ⟨a, b⟩ := p
    unfold counterUpdate
    by_cases ha : a = tok
    · rw [if_pos ha]
      unfold countOf
      by_cases ht : t = a
      · have hbeq : (t == a) = true := by simpa using ht
        simp [List.lookup, hbeq, ht, ha]
      · have hbeq : (t == a) = false := by simpa using ht
        have htok : t ≠ tok := fun hc => ht (hc.trans ha.symm)
        simp [List.lookup, hbeq, htok]
    · rw [if_neg ha]
      unfold countOf
      by_cases ht : t = a
      · have hbeq : (t == a) = true := by simpa using ht
        have htok : t ≠ tok := fun hc => ha (ht.symm.trans hc)
        simp [List.lookup, hbeq, htok]
      · have hbeq : (t == a) = false := by simpa using ht
        have := ih
        unfold countOf at this
        simp [List.lookup, hbeq, this]

/-- Keys after a `counterUpdate`: the old keys plus possibly the new token. -/
theorem keys_counterUpdate (tok t : String) :
    ∀ c : List (String × Nat),
      (t ∈ (counterUpdate c tok).map Prod.fst ↔ t ∈ c.map Prod.fst ∨ t = tok) := by
  intro c
  induction c with
  | nil => simp [counterUpdate]
  | cons p rest ih =>
    obtain ⟨a, b⟩ := p
    unfold counterUpdate
    by_cases ha : a = tok
    · rw [if_pos ha]
      subst ha
      simp only [List.map_cons, List.mem_cons]
      constructor
      · intro h
        rcases h with h | h
        · exact Or.inr h
        · exact Or.inl (Or.inr h)
      · intro h
        rcases h with (h | h) | h
        · exact Or.inl h
        · exact Or.inr h
        · exact Or.inl h
    · rw [if_neg ha]
      simp only [List.map_cons, List.mem_cons, ih]
      tauto

/-- A `counterUpdate` preserves distinctness of the stored keys. -/
theorem nodup_counterUpdate (tok : String) :
    ∀ c : List (String × Nat), (c.map Prod.fst).Nodup →
      ((counterUpdate c tok).map Prod.fst).Nodup := by
  intro c
  induction c with
  | nil => intro _; simp [counterUpdate]
  | cons p rest ih =>
    obtain ⟨a, b⟩ := p
    intro hnd
    simp only [List.map_cons, List.nodup_cons] at hnd
    unfold counterUpdate
    by_cases ha : a = tok
    · rw [if_pos ha]
      simp only [List.map_cons, List.nodup_cons]
      exact hnd
    · rw [if_neg ha]
      simp only [List.map_cons, List.nodup_cons]
      refine ⟨?_, ih hnd.2⟩
      intro hc
      rcases (keys_counterUpdate tok a rest).mp hc with h | h
      · exact hnd.1 h
      · exact ha h

/-- A `counterUpdate` keeps every stored count at least 1. -/
theorem counterUpdate_pos (tok : String) :
    ∀ c : List (String × Nat), (∀ p ∈ c, 1 ≤ p.2) →
      ∀ p ∈ counterUpdate c tok, 1 ≤ p.2 := by
  intro c
  induction c with
  | nil =>
    intro _ p hp
    simp only [counterUpdate, List.mem_singleton] at hp
    simp [hp]
  | cons q rest ih =>
    obtain ⟨a, b⟩ := q
    intro hpos p hp
    unfold counterUpdate at hp
    by_cases ha : a = tok
    · rw [if_pos ha] at hp
      rcases List.mem_cons.mp hp with hp | hp
      · have := hpos (a, b) (by simp)
        simp only [hp]
        omega
      · exact hpos p (by simp [hp])
    · rw [if_neg ha] at hp
      rcases List.mem_cons.mp hp with hp | hp
      · exact hp ▸ hpos (a, b) (by simp)
      · exact ih (fun q hq => hpos q (by simp [hq])) p hp

/-- A successful lookup pairs the queried token itself with the result. -/
theorem lookup_mem_pair :
    ∀ {c : List (String × Nat)} {t : String} {n : Nat},
      c.lookup t = some n → (t, n) ∈ c := by
  intro c
  induction c with
  | nil => intro t n h; simp [List.lookup] at h
  | cons p rest ih =>
    intro t n h
    obtain ⟨a, b⟩ := p
    rw [List.lookup] at h
    by_cases ht : t = a
    · have hbeq : (t == a) = true := by simpa using ht
      rw [hbeq] at h
      cases h
      simp [ht]
    · have hbeq : (t == a) = false := by simpa using ht
      rw [hbeq] at h
      exact List.mem_cons_of_mem _ (ih h)

/-- With distinct keys, each stored pair is faithful to `countOf`. -/
theorem countOf_of_mem_nodup :
    ∀ {c : List (String × Nat)}, (c.map Prod.fst).Nodup →
      ∀ p ∈ c, countOf c p.1 = p.2 := by
  intro c
  induction c with
  | nil => intro _ p hp; simp at hp
  | cons q rest ih =>
    obtain ⟨a, b⟩ := q
    intro hnd p hp
    simp only [List.map_cons, List.nodup_cons] at hnd
    rcases List.mem_cons.mp hp with hp | hp
    · subst hp
      unfold countOf
      simp [List.lookup]
    · have hne : p.1 ≠ a := by
        intro hc
        exact hnd.1 (hc ▸ List.mem_map_of_mem Prod.fst hp)
      unfold countOf
      have hbeq : (p.1 == a) = false := by simpa using hne
      simp only [List.lookup, hbeq]
      exact ih hnd.2 p hp

/-- A token of positive count is a stored key. -/
theorem mem_keys_of_countOf_pos {c : List (String × Nat)} {t : String}
    (h : 1 ≤ countOf c t) : t ∈ c.map Prod.fst := by
  unfold countOf at h
  cases hl : c.lookup t with
  | none => rw [hl] at h; simp at h
  | some n => exact List.mem_map_of_mem Prod.fst (lookup_mem_pair hl)

/-- The token fold of `buildCounter` adds each token occurrence once. -/
theorem countOf_tokens_foldl (t : String) :
    ∀ (tokens : List String) (c : List (String × Nat)),
      countOf (tokens.foldl counterUpdate c) t = countOf c t + tokens.count t := by
  intro tokens
  induction tokens with
  | nil => intro c; simp
  | cons tok toks ih =>
    intro c
    rw [List.foldl_cons, ih, countOf_counterUpdate tok t c, List.count_cons]
    have heq : (if t = tok then 1 else 0) = (if tok == t then 1 else 0) := by
      by_cases h : t = tok
      · simp [h]
      · have h2 : (tok == t) = false := by simpa using (Ne.symm h)
        simp [h, h2]
    rw [heq]
    omega

/-- The counter of `_build_vocabulary` stores exactly the global corpus
frequency of every token. -/
theorem countOf_buildCounter (chunks : List (List String)) (t : String) :
    countOf (buildCounter chunks) t = corpusCount chunks t := by
  unfold buildCounter corpusCount
  suffices h : ∀ c : List (String × Nat),
      countOf (chunks.foldl (fun c tokens => tokens.foldl counterUpdate c) c) t =
        countOf c t + (chunks.map fun tokens => tokens.count t).sum by
    have := h []
    simpa [countOf] using this
  induction chunks with
  | nil => intro c; simp
  | cons ck cks ih =>
    intro c
    rw [List.foldl_cons, ih, countOf_tokens_foldl]
    simp only [List.map_cons, List.sum_cons]
    omega

/-- The token fold of `buildCounter` preserves key distinctness. -/
theorem nodup_tokens_foldl :
    ∀ (tokens : List String) (c : List (String × Nat)), (c.map Prod.fst).Nodup →
      ((tokens.foldl counterUpdate c).map Prod.fst).Nodup := by
  intro tokens
  induction tokens with
  | nil => intro c h; exact h
  | cons tok toks ih =>
    intro c h
    rw [List.foldl_cons]
    exact ih _ (nodup_counterUpdate tok c h)

/-- The keys of the corpus counter are distinct. -/
theorem nodup_buildCounter (chunks : List (List String)) :
    ((buildCounter chunks).map Prod.fst).Nodup := by
  unfold buildCounter
  suffices h : ∀ c : List (String × Nat), (c.map Prod.fst).Nodup →
      ((chunks.foldl (fun c tokens => tokens.foldl counterUpdate c) c).map Prod.fst).Nodup by
    exact h [] (by simp)
  induction chunks with
  | nil => intro c h; exact h
  | cons ck cks ih =>
    intro c h
    rw [List.foldl_cons]
    exact ih _ (nodup_tokens_foldl ck c h)

/-- The token fold of `buildCounter` keeps every stored count positive. -/
theorem pos_tokens_foldl :
    ∀ (tokens : List String) (c : List (String × Nat)), (∀ p ∈ c, 1 ≤ p.2) →
      ∀ p ∈ tokens.foldl counterUpdate c, 1 ≤ p.2 := by
  intro tokens
  induction tokens with
  | nil => intro c h; exact h
  | cons tok toks ih =>
    intro c h
    rw [List.foldl_cons]
    exact ih _ (counterUpdate_pos tok c h)

/-- Every count stored in the corpus counter is at least 1. -/
theorem buildCounter_pos (chunks : List (List String)) :
    ∀ p ∈ buildCounter chunks, 1 ≤ p.2 := by
  unfold buildCounter
  suffices h : ∀ c : List (String × Nat), (∀ p ∈ c, 1 ≤ p.2) →
      ∀ p ∈ chunks.foldl (fun c tokens => tokens.foldl counterUpdate c) c, 1 ≤ p.2 by
    exact h [] (by simp)
  induction chunks with
  | nil => intro c h; exact h
  | cons ck cks ih =>
    intro c h
    rw [List.foldl_cons]
    exact ih _ (pos_tokens_foldl ck c h)

/-- A token is a key of the corpus counter exactly when it occurs in the
corpus. -/
theorem mem_keys_buildCounter (chunks : List (List String)) (t : String) :
    t ∈ (buildCounter chunks).map Prod.fst ↔ 1 ≤ corpusCount chunks t := by
  constructor
  · intro h
    obtain ⟨p, hp, hfst⟩ := List.mem_map.mp h
    have hval := countOf_of_mem_nodup (nodup_buildCounter chunks) p hp
    have hpos := buildCounter_pos chunks p hp
    rw [← countOf_buildCounter, ← hfst, hval]
    exact hpos
  · intro h
    apply mem_keys_of_countOf_pos
    rw [countOf_buildCounter]
    exact h

/-- The token column of the built vocabulary is the token column of the
sorted frequency-filtered counter. -/
theorem build_vocabulary_fst (chunks : List (List String)) (mf : Nat) :
    (_build_vocabulary chunks mf).map Prod.fst =
      (List.insertionSort vocabOrder
          ((buildCounter chunks).filter fun item => mf ≤ item.2)).map Prod.fst := by
  unfold _build_vocabulary
  rw [List.map_map]
  have h1 : (Prod.fst ∘ fun p : Nat × (String × Nat) => (p.2.1, p.1)) =
      (Prod.fst ∘ Prod.snd) := rfl
  rw [h1, ← List.map_map, List.enum_map_snd]

/-- Claim C4: `_build_vocabulary` keeps exactly the tokens of global
frequency at least `min_frequency` (for the meaningful thresholds
`min_frequency ≥ 1`), assigns contiguous indices 0..N-1 in list order, and
lists tokens by frequency descending with ties by token ascending; and on
the two-chunk corpus of the specification scenario with `min_frequency = 1`
it returns exactly the seven expected tokens with `cluster` at index 0. -/
theorem c4_build_vocabulary (chunks : List (List String)) (mf : Nat) (hmf : 1 ≤ mf) :
    ((∀ t : String,
        (∃ i, (t, i) ∈ _build_vocabulary chunks mf) ↔ mf ≤ corpusCount chunks t) ∧
      (_build_vocabulary chunks mf).map Prod.snd =
        List.range (_build_vocabulary chunks mf).length ∧
      ((_build_vocabulary chunks mf).map Prod.fst).Pairwise fun a b =>
        corpusCount chunks b < corpusCount chunks a ∨
          (corpusCount chunks a = corpusCount chunks b ∧ pyStrLe a b = true ∧ a ≠ b)) ∧
    _build_vocabulary
        [_tokenize "install via cluster apply",
          _tokenize "cluster validation checks deployments"] 1 =
      [("cluster", 0), ("apply", 1), ("checks", 2), ("deployments", 3),
        ("install", 4), ("validation", 5), ("via", 6)] := by
  have hnodup := nodup_buildCounter chunks
  have hfaithful : ∀ p ∈ List.insertionSort vocabOrder
      ((buildCounter chunks).filter fun item => mf ≤ item.2),
      p.2 = corpusCount chunks p.1 ∧ mf ≤ p.2 := by
    intro p hp
    have hitems : p ∈ (buildCounter chunks).filter fun item => mf ≤ item.2 :=
      (List.perm_insertionSort vocabOrder _).mem_iff.mp hp
    obtain ⟨hcount, hge⟩ := List.mem_filter.mp hitems
    refine ⟨?_, by simpa using hge⟩
    rw [← countOf_of_mem_nodup hnodup p hcount, countOf_buildCounter]
  refine ⟨⟨?_, ?_, ?_⟩, by decide⟩
  · intro t
    constructor
    · rintro ⟨i, hi⟩
      have hmem : t ∈ (_build_vocabulary chunks mf).map Prod.fst :=
        List.mem_map_of_mem Prod.fst hi
      rw [build_vocabulary_fst] at hmem
      obtain ⟨p, hp, hfst⟩ := List.mem_map.mp hmem
      obtain ⟨hc, hge⟩ := hfaithful p hp
      rw [← hfst, ← hc]
      exact hge
    · intro h
      have h1 : 1 ≤ corpusCount chunks t := le_trans hmf h
      have ht : t ∈ (buildCounter chunks).map Prod.fst :=
        (mem_keys_buildCounter chunks t).mpr h1
      obtain ⟨p, hp, hfst⟩ := List.mem_map.mp ht
      have hval : countOf (buildCounter chunks) p.1 = p.2 :=
        countOf_of_mem_nodup hnodup p hp
      have hp2 : p.2 = corpusCount chunks t := by
        rw [← hval, hfst, countOf_buildCounter]
      have hitems : p ∈ (buildCounter chunks).filter fun item => mf ≤ item.2 :=
        List.mem_filter.mpr ⟨hp, by simp [hp2]; exact h⟩
      have hsorted : p ∈ List.insertionSort vocabOrder
          ((buildCounter chunks).filter fun item => mf ≤ item.2) :=
        (List.perm_insertionSort vocabOrder _).mem_iff.mpr hitems
      have hmem : t ∈ (_build_vocabulary chunks mf).map Prod.fst := by
        rw [build_vocabulary_fst]
        rw [← hfst]
        exact List.mem_map_of_mem Prod.fst hsorted
      obtain ⟨q, hq, hqt⟩ := List.mem_map.mp hmem
      refine ⟨q.2, ?_⟩
      have : (q.1, q.2) = q := rfl
      rw [← hqt, this]
      exact hq
  · unfold _build_vocabulary
    rw [List.map_map, List.length_map, List.enum_length]
    have h1 : (Prod.snd ∘ fun p : Nat × (String × Nat) => (p.2.1, p.1)) =
        (Prod.fst : Nat × (String × Nat) → Nat) := rfl
    rw [h1, List.enum_map_fst]
  · rw [build_vocabulary_fst]
    rw [List.pairwise_map]
    have hsorted_pw : (List.insertionSort vocabOrder
        ((buildCounter chunks).filter fun item => mf ≤ item.2)).Pairwise vocabOrder :=
      List.sorted_insertionSort vocabOrder _
    have hnodup_fst : ((List.insertionSort vocabOrder
        ((buildCounter chunks).filter fun item => mf ≤ item.2)).map Prod.fst).Nodup := by
      have h2 : (((buildCounter chunks).filter fun item => mf ≤ item.2).map
          Prod.fst).Nodup :=
        hnodup.sublist ((List.filter_sublist _).map Prod.fst)
      exact ((List.perm_insertionSort vocabOrder _).map Prod.fst).nodup_iff.mpr h2
    have hne : (List.insertionSort vocabOrder
        ((buildCounter chunks).filter fun item => mf ≤ item.2)).Pairwise
        fun p q => p.1 ≠ q.1 := List.pairwise_map.mp hnodup_fst
    refine List.Pairwise.imp_of_mem ?_ (hsorted_pw.and hne)
    intro p q hp hq hpq
    obtain ⟨hord, hneq⟩ := hpq
    obtain ⟨hp2, _⟩ := hfaithful p hp
    obtain ⟨hq2, _⟩ := hfaithful q hq
    rcases hord with h1 | ⟨h1, h2⟩
    · left
      rw [← hp2, ← hq2]
      exact h1
    · right
      exact ⟨by rw [← hp2, ← hq2]; exact h1, h2, hneq⟩

/-- Witness for `c4_build_vocabulary`: on the scenario corpus with threshold
1, membership of `cluster` in the vocabulary is equivalent to its corpus
frequency being at least 1. -/
theorem c4_build_vocabulary_witness :
    (∃ i, ("cluster", i) ∈ _build_vocabulary
        [_tokenize "install via cluster apply",
          _tokenize "cluster validation checks deployments"] 1) ↔
      1 ≤ corpusCount
        [_tokenize "install via cluster apply",
          _tokenize "cluster validation checks deployments"] "cluster" :=
  ((c4_build_vocabulary
      [_tokenize "install via cluster apply",
        _tokenize "cluster validation checks deployments"] 1 (by decide)).1.1 "cluster")

/-- The head of a list extended on the right, when the list is nonempty. -/
theorem headD_append_of_ne_nil (buf : List String) (l : List String) (d : String)
    (h : buf ≠ []) : (buf ++ l).headD d = buf.headD d := by
  cases buf with
  | nil => exact absurd rfl h
  | cons x xs => rfl

/-- One packing step of `_chunk_text` preserves the loop invariant and
extends the processed paragraphs by the stepped paragraph. -/
theorem chunkStep_inv (max_chars : Nat) (cs : List (List String)) (buf : List String)
    (cur : Nat) (p : String) (h : ChunkInv max_chars (cs, buf, cur)) :
    ChunkInv max_chars (chunkStep max_chars (cs, buf, cur) p) ∧
    (chunkStep max_chars (cs, buf, cur) p).1.flatten ++
        (chunkStep max_chars (cs, buf, cur) p).2.1 = cs.flatten ++ buf ++ [p] := by
  obtain ⟨h1, h2, h3, h4, h5, h6, h7⟩ := h
  simp only [chunkStep]
  by_cases hc : max_chars < cur + p.length ∧ buf ≠ []
  · rw [if_pos hc]
    refine ⟨⟨by simp [paraLenSum], by simp, ?_, ?_, by simp, ?_, ?_⟩, ?_⟩
    · intro g hg
      rcases List.mem_append.mp hg with hg | hg
      · exact h3 g hg
      · rw [List.mem_singleton.mp hg]
        exact hc.2
    · intro g hg
      rcases List.mem_append.mp hg with hg | hg
      · exact h4 g hg
      · rw [List.mem_singleton.mp hg]
        exact h5
    · rw [List.chain'_append]
      refine ⟨h6, List.chain'_singleton _, ?_⟩
      intro x hx y hy
      simp only [List.head?_cons, Option.mem_def, Option.some.injEq] at hy
      subst hy
      exact h7 x hx hc.2
    · intro glast hlast _
      rw [List.getLast?_concat] at hlast
      cases hlast
      unfold chunkRel
      simp only [List.headD_cons]
      rw [← h1]
      exact hc.1
    · simp [List.append_assoc]
  · rw [if_neg hc]
    push_neg at hc
    refine ⟨⟨by simp [paraLenSum, h1], by simp, h3, h4, ?_, h6, ?_⟩, ?_⟩
    · intro hlen
      by_cases hb : buf = []
      · subst hb
        simp at hlen
      · have hle : cur + p.length ≤ max_chars := not_lt.mp fun hgt => hb (hc hgt)
        calc paraLenSum (buf ++ [p]) = paraLenSum buf + p.length := by
              simp [paraLenSum]
          _ = cur + p.length := by rw [h1]
          _ ≤ max_chars := hle
    · intro glast hlast _
      by_cases hb : buf = []
      · rw [h2 hb] at hlast
        simp at hlast
      · have := h7 glast hlast hb
        unfold chunkRel at this ⊢
        rwa [headD_append_of_ne_nil buf [p] "" hb]
    · simp [List.append_assoc]

/-- The packing fold of `_chunk_text` preserves the loop invariant and
accumulates exactly the processed paragraphs. -/
theorem chunkFold_inv (max_chars : Nat) :
    ∀ (ps : List String) (st : List (List String) × List String × Nat),
      ChunkInv max_chars st →
      ChunkInv max_chars (ps.foldl (chunkStep max_chars) st) ∧
      (ps.foldl (chunkStep max_chars) st).1.flatten ++
          (ps.foldl (chunkStep max_chars) st).2.1 = st.1.flatten ++ st.2.1 ++ ps := by
  intro ps
  induction ps with
  | nil =>
    intro st h
    exact ⟨h, by simp⟩
  | cons p ps ih =>
    intro st h
    obtain ⟨cs, buf, cur⟩ := st
    obtain ⟨hstep, hjoin⟩ := chunkStep_inv max_chars cs buf cur p h
    rw [List.foldl_cons]
    obtain ⟨hfold, hjoin2⟩ := ih _ hstep
    refine ⟨hfold, ?_⟩
    rw [hjoin2, hjoin]
    simp [List.append_assoc]

/-- Claim C5 (counterexample): on the two-paragraph document
`"aaaa\n\nbbbb"` with `max_chars = 9`, the code packs both paragraphs into a
single chunk of length 10 — each paragraph alone fits in 9 characters — so
the chunk text exceeds `max_chars`, while the packing the claim describes
(close exactly when the chunk text would exceed `max_chars`) would return
two chunks. -/
theorem c5_counterexample :
    _chunk_text_claim "aaaa\n\nbbbb" 9 ≠ _chunk_text "aaaa\n\nbbbb" 9 ∧
    _chunk_text "aaaa\n\nbbbb" 9 = ["aaaa\n\nbbbb"] ∧
    _chunk_text_claim "aaaa\n\nbbbb" 9 = ["aaaa", "bbbb"] ∧
    paragraphsOf "aaaa\n\nbbbb" = ["aaaa", "bbbb"] ∧
    ("aaaa" : String).length ≤ 9 ∧ ("bbbb" : String).length ≤ 9 ∧
    9 < ("aaaa\n\nbbbb" : String).length := by
  refine ⟨by decide, by decide, by decide, by decide, by decide, by decide, by decide⟩

/-- Claim C5 (amended): `_chunk_text` splits the document on
blank-line-delimited paragraphs and greedily packs consecutive paragraphs,
closing the current chunk exactly when the sum of the packed paragraphs'
character counts — the separators are not counted, so the final chunk text
may exceed the limit by two characters per join — would exceed `max_chars`:
the chunks partition the paragraphs in order (conjunct 2), chunks are
nonempty (3), every multi-paragraph chunk keeps its paragraph-length sum
within `max_chars` (4), consecutive chunks witness that closing was forced
(5), a paragraph longer than `max_chars` still forms its own chunk without
truncation (6), and the output is empty exactly when the input has no
paragraphs (7). -/
theorem c5_chunking (text : String) (max_chars : Nat) :
    _chunk_text text max_chars =
        (chunkGroups (paragraphsOf text) max_chars).map
          (fun g => String.intercalate "\n\n" g) ∧
    (chunkGroups (paragraphsOf text) max_chars).flatten = paragraphsOf text ∧
    (∀ g ∈ chunkGroups (paragraphsOf text) max_chars, g ≠ []) ∧
    (∀ g ∈ chunkGroups (paragraphsOf text) max_chars,
      2 ≤ g.length → paraLenSum g ≤ max_chars) ∧
    List.Chain' (chunkRel max_chars) (chunkGroups (paragraphsOf text) max_chars) ∧
    (∀ p ∈ paragraphsOf text, max_chars < p.length →
      [p] ∈ chunkGroups (paragraphsOf text) max_chars) ∧
    (_chunk_text text max_chars = [] ↔ paragraphsOf text = []) := by
  obtain ⟨hinv, hjoin⟩ := chunkFold_inv max_chars (paragraphsOf text) ([], [], 0)
    ⟨rfl, fun _ => rfl, by simp, by simp, by simp [paraLenSum], List.chain'_nil,
      by simp⟩
  rcases hfd : (paragraphsOf text).foldl (chunkStep max_chars) ([], [], 0)
    with ⟨cs, buf, cur⟩
  rw [hfd] at hinv hjoin
  obtain ⟨h1, h2, h3, h4, h5, h6, h7⟩ := hinv
  simp only at hjoin
  have hgroups : chunkGroups (paragraphsOf text) max_chars =
      if buf ≠ [] then cs ++ [buf] else cs := by
    simp [chunkGroups, hfd]
  have hjoin2 : (chunkGroups (paragraphsOf text) max_chars).flatten = paragraphsOf text := by
    rw [hgroups]
    by_cases hb : buf = []
    · rw [if_neg (by simp [hb])]
      rw [h2 hb] at hjoin ⊢
      simpa [hb] using hjoin
    · rw [if_pos hb]
      rw [List.flatten_append]
      simpa using hjoin
  have hne : ∀ g ∈ chunkGroups (paragraphsOf text) max_chars, g ≠ [] := by
    rw [hgroups]
    by_cases hb : buf = []
    · rw [if_neg (by simp [hb])]
      exact h3
    · rw [if_pos hb]
      intro g hg
      rcases List.mem_append.mp hg with hg | hg
      · exact h3 g hg
      · rw [List.mem_singleton.mp hg]
        exact hb
  have hsize : ∀ g ∈ chunkGroups (paragraphsOf text) max_chars,
      2 ≤ g.length → paraLenSum g ≤ max_chars := by
    rw [hgroups]
    by_cases hb : buf = []
    · rw [if_neg (by simp [hb])]
      exact h4
    · rw [if_pos hb]
      intro g hg
      rcases List.mem_append.mp hg with hg | hg
      · exact h4 g hg
      · rw [List.mem_singleton.mp hg]
        exact h5
  have hchain : List.Chain' (chunkRel max_chars)
      (chunkGroups (paragraphsOf text) max_chars) := by
    rw [hgroups]
    by_cases hb : buf = []
    · rw [if_neg (by simp [hb])]
      exact h6
    · rw [if_pos hb]
      rw [List.chain'_append]
      refine ⟨h6, List.chain'_singleton _, ?_⟩
      intro x hx y hy
      simp only [List.head?_cons, Option.mem_def, Option.some.injEq] at hy
      subst hy
      exact h7 x hx hb
  have hchunk_eq : _chunk_text text max_chars =
      (chunkGroups (paragraphsOf text) max_chars).map
        (fun g => String.intercalate "\n\n" g) := by
    unfold _chunk_text
    by_cases hp : paragraphsOf text = []
    · rw [if_pos hp, hp]
      have : chunkGroups [] max_chars = [] := rfl
      rw [this]
      rfl
    · rw [if_neg hp]
  refine ⟨hchunk_eq, hjoin2, hne, hsize, hchain, ?_, ?_⟩
  · intro p hp hlong
    have hp2 : p ∈ (chunkGroups (paragraphsOf text) max_chars).flatten := by
      rw [hjoin2]
      exact hp
    obtain ⟨g, hg, hpg⟩ := List.mem_flatten.mp hp2
    have hple : p.length ≤ paraLenSum g := by
      unfold paraLenSum
      exact List.single_le_sum (fun x _ => Nat.zero_le x) p.length
        (List.mem_map_of_mem String.length hpg)
    rcases Nat.lt_or_ge g.length 2 with hglen | hglen
    · have hgne := hne g hg
      have : g.length = 1 := by
        rcases Nat.eq_zero_or_pos g.length with hz | hpos
        · exact absurd (List.length_eq_zero.mp hz) hgne
        · omega
      obtain ⟨q, hq⟩ := List.length_eq_one.mp this
      rw [hq] at hpg
      rw [List.mem_singleton.mp hpg, ← hq]
      exact hg
    · have := hsize g hg hglen
      omega
  · constructor
    · intro hempty
      by_contra hp
      have hjoinne : (chunkGroups (paragraphsOf text) max_chars).flatten ≠ [] := by
        rw [hjoin2]
        exact hp
      have hgne : chunkGroups (paragraphsOf text) max_chars ≠ [] := by
        intro hc
        rw [hc] at hjoinne
        exact hjoinne rfl
      rw [hchunk_eq] at hempty
      exact hgne (List.map_eq_nil_iff.mp hempty)
    · intro hp
      unfold _chunk_text
      rw [if_pos hp]

/-- Witness for `c5_chunking` at a concrete document: the ten-character
paragraph exceeding the four-character limit forms its own chunk. -/
theorem c5_chunking_witness :
    ["aaaaaaaaaa"] ∈ chunkGroups (paragraphsOf "aaaaaaaaaa\n\nbb") 4 :=
  (c5_chunking "aaaaaaaaaa\n\nbb" 4).2.2.2.2.2.1 "aaaaaaaaaa" (by decide) (by decide)

end Arkit8s
